import Mathlib

/-!
Shallow embedding of `src/process_assets.py` (the Void-Gallery asset pipeline).

Modelling conventions:
- The filesystem is modelled per asset root as three association lists
  (`root`, `halfres`, `quarterres`), keyed by filename.  All paths the source
  manipulates are `os.path.join` of one of the three directories with a plain
  filename, so keys are filenames.
- A file carries a modification time (`Nat`) and, when it is a decodable
  image, its pixel dimensions; `img = none` models a file that
  `PIL.Image.open` would fail on.
- Stateful code threads the state explicitly; every `os` call that can raise
  (`getmtime` on a missing path, `Image.open` on a missing or undecodable
  file) is modelled by an explicit failure branch, mirroring the
  `try/except` of the worker function which converts any such exception into
  a per-asset `None` result while keeping the writes performed so far.
- Every filesystem probe, decode, write and rename is logged as an event so
  that "performs no write/decode/read" claims are directly statable.
- Writes stamp the current logical clock and advance it, modelling that a
  file saved later has a larger mtime; `os.rename` preserves mtimes.
- Python `dict` (the manifest, `numbered_map`) is an insertion-ordered map:
  `pop` removes the entry, item assignment replaces in place or appends.
- Python decimal rendering `f"{n}"` is modelled by `natToStr`, `str.isdigit`
  plus `int` by `pyIsDigit`/`strVal` (ASCII digits; the Unicode-digit corner
  of `str.isdigit` is outside every input considered here), `str.lower` by
  mapping `Char.toLower` (ASCII, as in all filenames considered).
- `update_config_and_manifest` (external persistence, spec section 6) only
  serializes `config.json`/`manifest.json`, which no discovery or renaming
  step ever matches; it is not modelled.
-/

namespace ProcessAssets

/-- Association list lookup by string key (first match). -/
def alookup {α : Type} : List (String × α) → String → Option α
  | [], _ => none
  | (k, v) :: rest, x => if k = x then some v else alookup rest x

/-- Remove every entry with the given key. -/
def aremove {α : Type} (m : List (String × α)) (k : String) : List (String × α) :=
  m.filter (fun p => decide (p.1 ≠ k))

/-- Python-dict style item assignment: replace in place if the key is
present, append otherwise. -/
def aset {α : Type} (m : List (String × α)) (k : String) (v : α) : List (String × α) :=
  if (alookup m k).isSome then m.map (fun p => if p.1 = k then (k, v) else p)
  else m ++ [(k, v)]

/-- Keys of an association list, in order. -/
def akeys {α : Type} (m : List (String × α)) : List String := m.map Prod.fst

/-- Decimal digits, fuel-based so that the kernel can evaluate it; the fuel
is always sufficient when at least `n`. -/
def natDigitsAux : Nat → Nat → List Char
  | 0, _ => []
  | fuel + 1, n =>
    if n < 10 then [Nat.digitChar n]
    else natDigitsAux fuel (n / 10) ++ [Nat.digitChar (n % 10)]

/-- Decimal digits of a natural number, most significant first
(model of Python decimal rendering). -/
def natDigits (n : Nat) : List Char := natDigitsAux (n + 1) n

/-- Decimal string of a natural number, modelling Python `str(n)`. -/
def natToStr (n : Nat) : String := String.mk (natDigits n)

/-- Numeric value of a digit string, modelling Python `int(s)` on an
all-digits string. -/
def strVal (cs : List Char) : Nat := cs.foldl (fun n c => n * 10 + (c.toNat - 48)) 0

/-- Model of Python `str.isdigit` for ASCII strings: nonempty and all
characters are decimal digits. -/
def pyIsDigit (s : String) : Bool := !s.data.isEmpty && s.data.all Char.isDigit

/-- Model of CPython `os.path.splitext` on a plain filename: split at the
last dot, unless every character before that dot is itself a dot (leading
dots do not start an extension). -/
def splitextData (cs : List Char) : List Char × List Char :=
  let rev := cs.reverse
  let ext := rev.takeWhile (fun c => c != '.')
  match rev.dropWhile (fun c => c != '.') with
  | [] => (cs, [])
  | _ :: beforeRev =>
    if beforeRev.reverse.all (fun c => c == '.') then (cs, [])
    else (beforeRev.reverse, '.' :: ext.reverse)

/-- Stem of a filename (`os.path.splitext(f)[0]`). -/
def splitextBase (f : String) : String := String.mk (splitextData f.data).1

/-- The characters of the target extension `".webp"`. -/
def webpChars : List Char := ['.', 'w', 'e', 'b', 'p']

/-- Model of `f.lower().endswith(".webp")`. -/
def lowerEndsWebp (f : String) : Bool :=
  webpChars.isSuffixOf (f.data.map Char.toLower)

/-- Model of `f.endswith(".webp")` with exact case. -/
def endsWebpExact (f : String) : Bool := webpChars.isSuffixOf f.data

/-- The derived target name of a source file:
`os.path.splitext(filename)[0] + ".webp"`. -/
def finalNameOf (filename : String) : String := splitextBase filename ++ ".webp"

/-- A file on disk: modification time, and image dimensions when the file is
an image `PIL` can decode (`none` models an undecodable or non-image file). -/
structure FileData where
  mtime : Nat
  img : Option (Nat × Nat)
deriving DecidableEq, Repr

/-- One asset root: the base directory plus its `halfres` and `quarterres`
subdirectories, each a filename-keyed map. -/
structure Dirs where
  root : List (String × FileData)
  halfd : List (String × FileData)
  quartd : List (String × FileData)
deriving DecidableEq, Repr

/-- Filesystem events, tagged by directory: stat probes
(`os.path.exists`/`os.path.getmtime`), image decodes (`Image.open`), file
writes (`save`) and renames (`os.rename`). -/
inductive FsEv where
  | statR (f : String)
  | statH (f : String)
  | statQ (f : String)
  | openR (f : String)
  | openH (f : String)
  | writeR (f : String)
  | writeH (f : String)
  | writeQ (f : String)
  | renameR (s t : String)
  | renameH (s t : String)
  | renameQ (s t : String)
deriving DecidableEq, Repr

/-- Events that mutate the filesystem (writes and renames). -/
def FsEv.isMut : FsEv → Bool
  | .writeR _ | .writeH _ | .writeQ _ => true
  | .renameR _ _ | .renameH _ _ | .renameQ _ _ => true
  | _ => false

/-- Mutable state threaded through a conversion: the three directory trees
and the logical clock used to stamp writes. -/
structure St where
  dirs : Dirs
  clock : Nat
deriving DecidableEq, Repr

/-- Outcome of one step of the worker: new state, events, and whether the
step completed without raising. -/
structure StepOut where
  st : St
  evs : List FsEv
  ok : Bool
deriving DecidableEq, Repr

/-- Step 1 of `convert_and_resize` (lines 61-78): the smart-cache check of
the full-resolution target against the source, followed by the
convert/copy-to-main-directory block.  `srcF` is the source file's metadata
read by `os.path.getmtime(src_full_path)`. -/
def step1 (filename final_name : String) (srcF : FileData) (s : St) : StepOut :=
  let needs_process : Bool :=
    match alookup s.dirs.root final_name with
    | some dstF => decide (¬ srcF.mtime ≤ dstF.mtime)
    | none => true
  if needs_process || decide (filename ≠ final_name) then
    match srcF.img with
    | none => ⟨s, [.statR final_name, .openR filename], false⟩
    | some im =>
      if filename ≠ final_name then
        ⟨⟨{ s.dirs with root := aset s.dirs.root final_name ⟨s.clock, some im⟩ }, s.clock + 1⟩,
          [.statR final_name, .openR filename, .writeR final_name], true⟩
      else ⟨s, [.statR final_name, .openR filename], true⟩
  else ⟨s, [.statR final_name], true⟩

/-- Half-resolution regeneration body (lines 86-90): open the full target,
halve each dimension with a floor of one pixel, save into `halfres`. -/
def regenHalf (final_name : String) (s : St) (pre : List FsEv) : StepOut :=
  match alookup s.dirs.root final_name with
  | none => ⟨s, pre ++ [.openR final_name], false⟩
  | some ff =>
    match ff.img with
    | none => ⟨s, pre ++ [.openR final_name], false⟩
    | some (w, h) =>
      let fd : FileData := ⟨s.clock, some (max 1 (w / 2), max 1 (h / 2))⟩
      ⟨⟨{ s.dirs with halfd := aset s.dirs.halfd final_name fd }, s.clock + 1⟩,
        pre ++ [.openR final_name, .writeH final_name], true⟩

/-- Step 2 of `convert_and_resize` (lines 80-90): smart-cache check of the
half tier against the full tier, then regeneration when stale. -/
def step2 (final_name : String) (s : St) : StepOut :=
  match alookup s.dirs.halfd final_name with
  | some hf =>
    match alookup s.dirs.root final_name with
    | none => ⟨s, [.statH final_name, .statR final_name], false⟩
    | some ff =>
      if ff.mtime ≤ hf.mtime then ⟨s, [.statH final_name, .statR final_name], true⟩
      else regenHalf final_name s [.statH final_name, .statR final_name]
  | none => regenHalf final_name s [.statH final_name]

/-- Quarter-resolution regeneration body (lines 98-104): if the half tier
exists, open it, halve again, save into `quarterres`; otherwise silently
skip. -/
def regenQuarter (final_name : String) (s : St) (pre : List FsEv) : StepOut :=
  match alookup s.dirs.halfd final_name with
  | none => ⟨s, pre ++ [.statH final_name], true⟩
  | some hf =>
    match hf.img with
    | none => ⟨s, pre ++ [.statH final_name, .openH final_name], false⟩
    | some (w, h) =>
      let fd : FileData := ⟨s.clock, some (max 1 (w / 2), max 1 (h / 2))⟩
      ⟨⟨{ s.dirs with quartd := aset s.dirs.quartd final_name fd }, s.clock + 1⟩,
        pre ++ [.statH final_name, .openH final_name, .writeQ final_name], true⟩

/-- Step 3 of `convert_and_resize` (lines 92-104): smart-cache check of the
quarter tier against the half tier, then chained regeneration from the half
tier.  Note `os.path.getmtime(half_res_target)` raises when the quarter
target exists but the half tier is missing. -/
def step3 (final_name : String) (s : St) : StepOut :=
  match alookup s.dirs.quartd final_name with
  | some qf =>
    match alookup s.dirs.halfd final_name with
    | none => ⟨s, [.statQ final_name, .statH final_name], false⟩
    | some hf =>
      if hf.mtime ≤ qf.mtime then ⟨s, [.statQ final_name, .statH final_name], true⟩
      else regenQuarter final_name s [.statQ final_name, .statH final_name]
  | none => regenQuarter final_name s [.statQ final_name]

/-- Result of the worker function: final state, the per-asset result
(`(final_filename, original_filename)` on success, `none` when an exception
was caught), and the filesystem events performed. -/
structure CRes where
  st : St
  result : Option (String × String)
  evs : List FsEv
deriving DecidableEq, Repr

/-- Model of `convert_and_resize` (lines 43-110).  A dry run returns the
success tuple before touching the filesystem.  Otherwise the source mtime is
read (raising if the source is missing), and the three tier steps run in
sequence; an exception in any step is caught, yielding result `none` while
the writes already performed persist. -/
def convert_and_resize (s : St) (filename : String) (is_dry_run : Bool) : CRes :=
  let final_name := finalNameOf filename
  if is_dry_run then ⟨s, some (final_name, filename), []⟩
  else
    match alookup s.dirs.root filename with
    | none => ⟨s, none, [.statR filename]⟩
    | some srcF =>
      let o1 := step1 filename final_name srcF s
      if o1.ok then
        let o2 := step2 final_name o1.st
        if o2.ok then
          let o3 := step3 final_name o2.st
          ⟨o3.st, if o3.ok then some (final_name, filename) else none,
            .statR filename :: (o1.evs ++ o2.evs ++ o3.evs)⟩
        else ⟨o2.st, none, .statR filename :: (o1.evs ++ o2.evs)⟩
      else ⟨o1.st, none, .statR filename :: o1.evs⟩

/-- Rename a file within one directory map (`os.rename`): the destination is
replaced if present, and the entry keeps its metadata (renames preserve
mtimes). -/
def fsRename (m : List (String × FileData)) (s t : String) : List (String × FileData) :=
  match alookup m s with
  | none => m
  | some v => aset (aremove m s) t v

/-- Result of `perform_rename_set`. -/
structure RRes where
  dirs : Dirs
  ok : Bool
  evs : List FsEv
deriving DecidableEq, Repr

/-- Model of `perform_rename_set` (lines 177-197): refuse when the
destination exists in the root tier; otherwise rename the source file in
each of the three trees where it exists (skipping the actual rename in a dry
run).  `OSError` on a healthy in-memory map cannot occur, so the result is
`true` in every non-refused case. -/
def perform_rename_set (d : Dirs) (dry : Bool) (src_name dst_name : String) : RRes :=
  if (alookup d.root dst_name).isSome then ⟨d, false, [.statR dst_name]⟩
  else
    let r : List (String × FileData) × List FsEv :=
      if (alookup d.root src_name).isSome then
        if dry then (d.root, [.statR src_name])
        else (fsRename d.root src_name dst_name, [.statR src_name, .renameR src_name dst_name])
      else (d.root, [.statR src_name])
    let hh : List (String × FileData) × List FsEv :=
      if (alookup d.halfd src_name).isSome then
        if dry then (d.halfd, [.statH src_name])
        else (fsRename d.halfd src_name dst_name, [.statH src_name, .renameH src_name dst_name])
      else (d.halfd, [.statH src_name])
    let q : List (String × FileData) × List FsEv :=
      if (alookup d.quartd src_name).isSome then
        if dry then (d.quartd, [.statQ src_name])
        else (fsRename d.quartd src_name dst_name, [.statQ src_name, .renameQ src_name dst_name])
      else (d.quartd, [.statQ src_name])
    ⟨⟨r.1, hh.1, q.1⟩, true, .statR dst_name :: (r.2 ++ hh.2 ++ q.2)⟩

/-- The in-memory manifest: insertion-ordered map from current asset name to
original source filename. -/
abbrev Manifest := List (String × String)

/-- Manifest rekeying as performed after a successful rename
(`manifest[dst_name] = manifest.pop(src_name)` guarded by
`src_name in manifest`). -/
def rekey (m : Manifest) (src_name dst_name : String) : Manifest :=
  match alookup m src_name with
  | none => m
  | some v => aset (aremove m src_name) dst_name v

/-- Insert a key into Python-dict-like `numbered_map` (last write wins on a
duplicate numeric key, keeping the original position). -/
def numInsert (m : List (Nat × String)) (k : Nat) (v : String) : List (Nat × String) :=
  if m.any (fun p => p.1 = k) then m.map (fun p => if p.1 = k then (k, v) else p)
  else m ++ [(k, v)]

/-- Lines 119-127: partition the `.webp` files of the root listings into the
numeric map and the `others` list, in listing order. -/
def partitionFiles (files : List String) : List (Nat × String) × List String :=
  files.foldl (fun acc f =>
    let name := splitextBase f
    if pyIsDigit name then (numInsert acc.1 (strVal name.data) f, acc.2)
    else (acc.1, acc.2 ++ [f])) ([], [])

/-- Ascending insertion into a sorted list of numbers. -/
def insertNat (x : Nat) : List Nat → List Nat
  | [] => [x]
  | y :: ys => if x ≤ y then x :: y :: ys else y :: insertNat x ys

/-- Model of Python `sorted` on a list of ints. -/
def sortNat (l : List Nat) : List Nat := l.foldr insertNat []

/-- Model of `set(...)` before re-sorting: drop duplicates. -/
def dedupNat : List Nat → List Nat
  | [] => []
  | x :: xs => if x ∈ xs then dedupNat xs else x :: dedupNat xs

/-- Lines 132-138: the ascending gap list `[i for i in range(1, max_val) if
i not in existing_set]`. -/
def gapsOf (existing_nums : List Nat) : List Nat :=
  match existing_nums.getLast? with
  | none => []
  | some max_val => (List.range' 1 (max_val - 1)).filter (fun i => decide (i ∉ existing_nums))

/-- Lines 143-161: the gap-filling loop.  `nums` is the mutable
`existing_nums` list and `curr` the `curr_high` cursor; the cursor moves and
the slot list is overwritten whether or not the rename set succeeded, while
the manifest is only rekeyed on success. -/
def fillGaps (dry : Bool) : List Nat → Dirs → Manifest → List Nat → Int →
    Dirs × Manifest × List Nat × List FsEv
  | [], d, m, nums, _ => (d, m, nums, [])
  | gap :: rest, d, m, nums, curr =>
    if curr < 0 then (d, m, nums, [])
    else
      let source_num := nums.getD curr.toNat 0
      if source_num < gap then (d, m, nums, [])
      else
        let src_name := natToStr source_num ++ ".webp"
        let dst_name := natToStr gap ++ ".webp"
        let r := perform_rename_set d dry src_name dst_name
        let m2 := if r.ok then rekey m src_name dst_name else m
        let rec_ := fillGaps dry rest r.dirs m2 (nums.set curr.toNat gap) (curr - 1)
        (rec_.1, rec_.2.1, rec_.2.2.1, r.evs ++ rec_.2.2.2)

/-- Lines 163-173: rename the non-numeric `.webp` files to consecutive slot
numbers; `next_num` advances whether or not the rename succeeded, the
manifest is rekeyed only on success. -/
def renameOthers (dry : Bool) : List String → Dirs → Manifest → Nat →
    Dirs × Manifest × Nat × List FsEv
  | [], d, m, n => (d, m, n, [])
  | f :: rest, d, m, n =>
    let new_name := natToStr n ++ ".webp"
    let r := perform_rename_set d dry f new_name
    let m2 := if r.ok then rekey m f new_name else m
    let rec_ := renameOthers dry rest r.dirs m2 (n + 1)
    (rec_.1, rec_.2.1, rec_.2.2.1, r.evs ++ rec_.2.2.2)

/-- Result of the renumbering pass. -/
structure SRes where
  dirs : Dirs
  manifest : Manifest
  total : Nat
  evs : List FsEv
deriving DecidableEq, Repr

/-- Model of `standardize_names_and_fill_gaps` (lines 112-175): list the
root-tier files whose lowercased name ends in `.webp`, partition into
numeric slots and others, fill gaps from the highest slots downward, then
append the others at consecutive fresh slot numbers; return
`next_num - 1`. -/
def standardize_names_and_fill_gaps (d : Dirs) (m : Manifest) (dry : Bool) : SRes :=
  let files := (akeys d.root).filter lowerEndsWebp
  let pr := partitionFiles files
  let existing_nums := sortNat (pr.1.map Prod.fst)
  let gaps := gapsOf existing_nums
  let g := fillGaps dry gaps d m existing_nums ((existing_nums.length : Int) - 1)
  let nums2 := sortNat (dedupNat g.2.2.1)
  let next0 := match nums2.getLast? with
    | none => 1
    | some last => last + 1
  let o := renameOthers dry pr.2 g.1 g.2.1 next0
  ⟨o.1, o.2.1, o.2.2.1 - 1, g.2.2.2 ++ o.2.2.2⟩

/-- Lexicographic (code-point) comparison of filenames, modelling Python
string `<`. -/
def strLtB : List Char → List Char → Bool
  | [], [] => false
  | [], _ :: _ => true
  | _ :: _, [] => false
  | a :: as_, b :: bs => if a < b then true else if b < a then false else strLtB as_ bs

/-- Ascending insertion by `strLtB`. -/
def insertStr (x : String) : List String → List String
  | [] => [x]
  | y :: ys => if strLtB y.data x.data then y :: insertStr x ys else x :: y :: ys

/-- Model of Python `sorted` on a list of path strings (all in the same
directory, so comparing basenames matches comparing full paths). -/
def sortStr (l : List String) : List String := l.foldr insertStr []

/-- Model of `set(...)` on the glob results: drop duplicate names. -/
def dedupStr : List String → List String
  | [] => []
  | x :: xs => if x ∈ xs then dedupStr xs else x :: dedupStr xs

/-- Model of the glob patterns of lines 236-240: the name matches
`*.png/".jpg"/...` in exact lower or upper case, and glob hides names
starting with a dot. -/
def globMatchB (f : String) : Bool :=
  (match f.data with
   | [] => false
   | c :: _ => c != '.') &&
  ([".png", ".jpg", ".jpeg", ".webp", ".PNG", ".JPG", ".JPEG", ".WEBP"].any
    (fun e => e.data.isSuffixOf f.data))

/-- Lines 236-254: discovery of pending sources — glob the recognized
extensions in the root, dedupe and sort, then drop any file whose basename
is already a manifest value (already-ingested sources). -/
def discover (root : List (String × FileData)) (m : Manifest) : List String :=
  let all_files := sortStr (dedupStr ((akeys root).filter globMatchB))
  all_files.filter (fun f => !(m.any (fun p => p.2 == f)))

/-- Result of the conversion batch. -/
structure BRes where
  st : St
  manifest : Manifest
  evs : List FsEv
deriving DecidableEq, Repr

/-- Lines 263-270: run the worker over the pending tasks (one admissible
schedule of the pool) and fold the successful results into the manifest,
first write wins (`if final_name not in manifest`). -/
def runTasks (dry : Bool) : List String → St → Manifest → BRes
  | [], s, m => ⟨s, m, []⟩
  | f :: rest, s, m =>
    let r := convert_and_resize s f dry
    let m2 := match r.result with
      | some (fin, orig) => if (alookup m fin).isNone then m ++ [(fin, orig)] else m
      | none => m
    let b := runTasks dry rest r.st m2
    ⟨b.st, b.manifest, r.evs ++ b.evs⟩

/-- Result of one pipeline pass over one root. -/
structure PRes where
  st : St
  manifest : Manifest
  total : Nat
  evs : List FsEv
deriving DecidableEq, Repr

/-- Model of `process_directory` (lines 220-278): discover pending sources,
convert them, then renumber; the external persistence step (config and
manifest serialization) is outside the model. -/
def process_directory (s : St) (m : Manifest) (dry : Bool) : PRes :=
  let pending := discover s.dirs.root m
  let b := runTasks dry pending s m
  let r := standardize_names_and_fill_gaps b.st.dirs b.manifest dry
  ⟨⟨r.dirs, b.st.clock⟩, r.manifest, r.total, b.evs ++ r.evs⟩

/-! Basic association-list lemmas. -/

theorem alookup_append {α : Type} (m m2 : List (String × α)) (x : String) :
    alookup (m ++ m2) x =
      match alookup m x with
      | some v => some v
      | none => alookup m2 x := by
  induction m with
  | nil => rfl
  | cons p rest ih =>
    obtain ⟨k, v⟩ := p
    simp only [List.cons_append, alookup]
    split <;> simp [*]

theorem alookup_map_replace {α : Type} (m : List (String × α)) (k : String) (v : α)
    (h : (alookup m k).isSome) :
    alookup (m.map (fun p => if p.1 = k then (k, v) else p)) k = some v := by
  induction m with
  | nil => simp [alookup] at h
  | cons p rest ih =>
    rw [List.map_cons]
    by_cases hk : p.1 = k
    · rw [if_pos hk]
      simp [alookup]
    · rw [if_neg hk]
      simp only [alookup, if_neg hk] at h
      simp [alookup, hk, ih h]

theorem alookup_aset_self {α : Type} (m : List (String × α)) (k : String) (v : α) :
    alookup (aset m k v) k = some v := by
  unfold aset
  by_cases h : (alookup m k).isSome
  · rw [if_pos h]
    exact alookup_map_replace m k v h
  · rw [if_neg h]
    rw [alookup_append]
    rw [Option.not_isSome_iff_eq_none] at h
    rw [h]
    simp [alookup]

theorem alookup_aset_ne {α : Type} (m : List (String × α)) (k x : String) (v : α)
    (h : k ≠ x) :
    alookup (aset m k v) x = alookup m x := by
  have hmap : ∀ m2 : List (String × α),
      alookup (m2.map (fun p => if p.1 = k then (k, v) else p)) x = alookup m2 x := by
    intro m2
    induction m2 with
    | nil => rfl
    | cons p rest ih =>
      rw [List.map_cons]
      by_cases hpk : p.1 = k
      · rw [if_pos hpk]
        have hpx : ¬ p.1 = x := by rw [hpk]; exact h
        simp [alookup, h, hpx, ih]
      · rw [if_neg hpk]
        by_cases hpx : p.1 = x
        · simp [alookup, hpx]
        · simp [alookup, hpx, ih]
  unfold aset
  split
  · exact hmap m
  · rw [alookup_append]
    cases hm : alookup m x with
    | some v2 => rfl
    | none => simp [alookup, h]

theorem aremove_cons {α : Type} (p : String × α) (rest : List (String × α)) (k : String) :
    aremove (p :: rest) k = if p.1 = k then aremove rest k else p :: aremove rest k := by
  simp only [aremove, List.filter_cons]
  by_cases h : p.1 = k
  · simp [h]
  · simp [h]

theorem alookup_aremove_self {α : Type} (m : List (String × α)) (k : String) :
    alookup (aremove m k) k = none := by
  induction m with
  | nil => rfl
  | cons p rest ih =>
    rw [aremove_cons]
    by_cases hpk : p.1 = k
    · rw [if_pos hpk]
      exact ih
    · rw [if_neg hpk]
      simpa [alookup, hpk] using ih

theorem alookup_aremove_ne {α : Type} (m : List (String × α)) (k x : String)
    (h : k ≠ x) :
    alookup (aremove m k) x = alookup m x := by
  induction m with
  | nil => rfl
  | cons p rest ih =>
    rw [aremove_cons]
    by_cases hpk : p.1 = k
    · rw [if_pos hpk]
      have hpx : ¬ p.1 = x := by rw [hpk]; exact h
      simp [alookup, hpx, ih]
    · rw [if_neg hpk]
      by_cases hpx : p.1 = x
      · simp [alookup, hpx]
      · simp [alookup, hpx, ih]

theorem alookup_eq_none_iff {α : Type} (m : List (String × α)) (x : String) :
    alookup m x = none ↔ x ∉ akeys m := by
  induction m with
  | nil => simp [alookup, akeys]
  | cons p rest ih =>
    by_cases hpx : p.1 = x
    · simp [alookup, akeys, hpx]
    · simp [alookup, akeys, hpx, ih, Ne.symm hpx]

theorem aremove_of_not_mem {α : Type} (m : List (String × α)) (s : String)
    (h : s ∉ akeys m) :
    aremove m s = m := by
  rw [aremove, List.filter_eq_self]
  intro p hp
  simp only [decide_eq_true_eq]
  intro hps
  apply h
  rw [← hps]
  exact List.mem_map_of_mem Prod.fst hp

theorem length_aremove_of_nodup {α : Type} (m : List (String × α)) (s : String)
    (hnd : (akeys m).Nodup) (h : (alookup m s).isSome) :
    (aremove m s).length + 1 = m.length := by
  induction m with
  | nil => simp [alookup] at h
  | cons p rest ih =>
    simp only [akeys, List.map_cons, List.nodup_cons] at hnd
    rw [aremove_cons]
    by_cases hps : p.1 = s
    · rw [if_pos hps]
      have hrest : aremove rest s = rest := by
        apply aremove_of_not_mem
        rw [← hps]
        exact hnd.1
      rw [hrest]
      simp
    · rw [if_neg hps]
      simp only [alookup, if_neg hps] at h
      have hih := ih hnd.2 h
      simp only [List.length_cons]
      omega

theorem length_aset_append {α : Type} (m : List (String × α)) (k : String) (v : α)
    (h : alookup m k = none) :
    (aset m k v).length = m.length + 1 := by
  unfold aset
  rw [h]
  simp

/-! Lemmas about `rekey` (the manifest re-keying after a successful rename). -/

theorem rekey_length (m : Manifest) (s t : String)
    (hnd : (akeys m).Nodup) (ht : alookup m t = none) :
    (rekey m s t).length = m.length := by
  unfold rekey
  cases hs : alookup m s with
  | none => rfl
  | some v =>
    have hst : s ≠ t := by
      intro he
      rw [he, ht] at hs
      exact Option.noConfusion hs
    have hrt : alookup (aremove m s) t = none := by
      rw [alookup_aremove_ne m s t hst]
      exact ht
    rw [length_aset_append _ _ _ hrt]
    have := length_aremove_of_nodup m s hnd (by rw [hs]; rfl)
    omega

theorem rekey_lookup_ne (m : Manifest) (s t k : String) (hks : k ≠ s) (hkt : k ≠ t) :
    alookup (rekey m s t) k = alookup m k := by
  unfold rekey
  cases hs : alookup m s with
  | none => rfl
  | some v =>
    rw [alookup_aset_ne _ _ _ _ (Ne.symm hkt)]
    exact alookup_aremove_ne _ _ _ (Ne.symm hks)

theorem rekey_lookup_dst (m : Manifest) (s t : String) (ht : alookup m t = none) :
    alookup (rekey m s t) t = alookup m s := by
  unfold rekey
  cases hs : alookup m s with
  | none => exact ht
  | some v => exact alookup_aset_self _ _ _

/-! Reduction lemmas for the three derivation steps. -/

theorem step1_self (f : String) (srcF dstF : FileData) (s : St)
    (hdst : alookup s.dirs.root f = some dstF) (hle : srcF.mtime ≤ dstF.mtime) :
    step1 f f srcF s = ⟨s, [.statR f], true⟩ := by
  unfold step1
  simp only [hdst]
  have h1 : decide (¬ srcF.mtime ≤ dstF.mtime) = false := by simpa using hle
  simp [h1]
  intro hlt
  exact absurd hle (by omega)

theorem step1_diff_write (f t : String) (srcF : FileData) (im : Nat × Nat) (s : St)
    (hne : f ≠ t) (him : srcF.img = some im) :
    step1 f t srcF s =
      ⟨⟨{ s.dirs with root := aset s.dirs.root t ⟨s.clock, some im⟩ }, s.clock + 1⟩,
        [.statR t, .openR f, .writeR t], true⟩ := by
  unfold step1
  have h1 : decide (f ≠ t) = true := by simpa using hne
  simp only [h1, Bool.or_true, him, if_true]
  rw [if_pos hne]

theorem step2_fresh (t : String) (ff hf : FileData) (s : St)
    (hhalf : alookup s.dirs.halfd t = some hf)
    (hfull : alookup s.dirs.root t = some ff)
    (hle : ff.mtime ≤ hf.mtime) :
    step2 t s = ⟨s, [.statH t, .statR t], true⟩ := by
  unfold step2
  simp only [hhalf, hfull]
  rw [if_pos hle]

theorem step2_regen_of_missing (t : String) (ff : FileData) (im : Nat × Nat) (s : St)
    (hhalf : alookup s.dirs.halfd t = none)
    (hfull : alookup s.dirs.root t = some ff) (him : ff.img = some im) :
    step2 t s =
      ⟨⟨{ s.dirs with halfd := aset s.dirs.halfd t (FileData.mk s.clock (some (max 1 (im.1 / 2), max 1 (im.2 / 2)))) }, s.clock + 1⟩,
        [.statH t, .openR t, .writeH t], true⟩ := by
  unfold step2 regenHalf
  simp only [hhalf, hfull, him]
  simp

theorem step3_fresh (t : String) (hf qf : FileData) (s : St)
    (hq : alookup s.dirs.quartd t = some qf)
    (hh : alookup s.dirs.halfd t = some hf)
    (hle : hf.mtime ≤ qf.mtime) :
    step3 t s = ⟨s, [.statQ t, .statH t], true⟩ := by
  unfold step3
  simp only [hq, hh]
  rw [if_pos hle]

theorem step3_regen_of_missing (t : String) (hf : FileData) (im : Nat × Nat) (s : St)
    (hq : alookup s.dirs.quartd t = none)
    (hh : alookup s.dirs.halfd t = some hf) (him : hf.img = some im) :
    step3 t s =
      ⟨⟨{ s.dirs with quartd := aset s.dirs.quartd t (FileData.mk s.clock (some (max 1 (im.1 / 2), max 1 (im.2 / 2)))) }, s.clock + 1⟩,
        [.statQ t, .statH t, .openH t, .writeQ t], true⟩ := by
  unfold step3 regenQuarter
  simp only [hq, hh, him]
  simp

theorem step2_regen_of_stale (t : String) (ff hf : FileData) (im : Nat × Nat) (s : St)
    (hhalf : alookup s.dirs.halfd t = some hf)
    (hfull : alookup s.dirs.root t = some ff)
    (hnle : ¬ ff.mtime ≤ hf.mtime) (him : ff.img = some im) :
    step2 t s =
      ⟨⟨{ s.dirs with halfd := aset s.dirs.halfd t (FileData.mk s.clock (some (max 1 (im.1 / 2), max 1 (im.2 / 2)))) }, s.clock + 1⟩,
        [.statH t, .statR t, .openR t, .writeH t], true⟩ := by
  unfold step2 regenHalf
  simp only [hhalf, hfull, him]
  rw [if_neg hnle]
  simp

theorem step3_regen_of_stale (t : String) (hf qf : FileData) (im : Nat × Nat) (s : St)
    (hq : alookup s.dirs.quartd t = some qf)
    (hh : alookup s.dirs.halfd t = some hf)
    (hnle : ¬ hf.mtime ≤ qf.mtime) (him : hf.img = some im) :
    step3 t s =
      ⟨⟨{ s.dirs with quartd := aset s.dirs.quartd t (FileData.mk s.clock (some (max 1 (im.1 / 2), max 1 (im.2 / 2)))) }, s.clock + 1⟩,
        [.statQ t, .statH t, .statH t, .openH t, .writeQ t], true⟩ := by
  unfold step3 regenQuarter
  simp only [hq, hh, him]
  rw [if_neg hnle]
  simp

/-! Claim theorems. -/

/-- C10: with the dry-run flag set, `convert_and_resize` returns the success
pair `(final_name, original filename)` for every task and every filesystem
state — including a missing or undecodable source — performing no filesystem
reads, decodes or writes (its event list is empty) and leaving the state
unchanged. -/
theorem C10_dry_run_pure (s : St) (filename : String) :
    convert_and_resize s filename true =
      ⟨s, some (finalNameOf filename, filename), []⟩ := rfl

/-- C8: a failing conversion is isolated: when `convert_and_resize` reports
a caught exception (`result = none`) for an asset, the manifest fold adds no
entry for it and leaves every pre-existing entry untouched (the batch
manifest is exactly the input manifest for that unit), and the batch
continues with the remaining tasks from the post-failure filesystem
state. -/
theorem C8_failure_isolated (s : St) (f : String) (ts : List String) (m : Manifest)
    (h : (convert_and_resize s f false).result = none) :
    (runTasks false [f] s m).manifest = m ∧
    runTasks false (f :: ts) s m =
      ⟨(runTasks false ts (convert_and_resize s f false).st m).st,
       (runTasks false ts (convert_and_resize s f false).st m).manifest,
       (convert_and_resize s f false).evs ++
         (runTasks false ts (convert_and_resize s f false).st m).evs⟩ := by
  constructor
  · show (runTasks false [f] s m).manifest = m
    simp only [runTasks, h]
  · simp only [runTasks, h]

/-- C8 witness: a concrete batch where the first asset's source file is
missing, so its conversion fails; the manifest is untouched. -/
theorem C8_failure_isolated_witness :
    (convert_and_resize ⟨⟨[], [], []⟩, 0⟩ "x.png" false).result = none ∧
    (runTasks false ["x.png"] ⟨⟨[], [], []⟩, 0⟩ [("1.webp", "old.png")]).manifest =
      [("1.webp", "old.png")] := by
  refine ⟨by decide, ?_⟩
  exact (C8_failure_isolated ⟨⟨[], [], []⟩, 0⟩ "x.png" [] [("1.webp", "old.png")]
    (by decide)).1

/-- Concrete state for the C2 counterexample: the source `b.png` (mtime 0)
sits beside its already-existing full-tier target `b.webp` (mtime 9), whose
half and quarter tiers also exist and are fresh. -/
def c2state : St :=
  ⟨⟨[("b.png", ⟨0, some (4, 4)⟩), ("b.webp", ⟨9, some (4, 4)⟩)],
    [("b.webp", ⟨10, some (2, 2)⟩)], [("b.webp", ⟨11, some (1, 1)⟩)]⟩, 20⟩

/-- C2 counterexample: in `c2state` the full-tier target exists and its
mtime (9) is at least the source's (0), so by the claim step 1 should
perform no decode and no write — yet because the source path differs from
the target path, the run decodes `b.png` and writes the full tier. -/
theorem C2_fresh_full_tier_rewrite_cex :
    alookup c2state.dirs.root "b.webp" = some ⟨9, some (4, 4)⟩ ∧
    alookup c2state.dirs.root "b.png" = some ⟨0, some (4, 4)⟩ ∧
    FsEv.writeR "b.webp" ∈ (convert_and_resize c2state "b.png" false).evs ∧
    FsEv.openR "b.png" ∈ (convert_and_resize c2state "b.png" false).evs := by decide

/-- C2 amended: when the full-tier target exists and is at least as new as
the source, step 1 skips the decode and the write only if the source path
equals the full-tier target path (the task is a no-op with a single stat);
when the paths differ, step 1 decodes the source regardless of freshness and
writes the full tier whenever the source is decodable. -/
theorem C2_full_tier_step_amended (filename final_name : String) (srcF dstF : FileData)
    (s : St)
    (hdst : alookup s.dirs.root final_name = some dstF)
    (hfresh : srcF.mtime ≤ dstF.mtime) :
    (filename = final_name →
      step1 filename final_name srcF s = ⟨s, [.statR final_name], true⟩) ∧
    (filename ≠ final_name →
      FsEv.openR filename ∈ (step1 filename final_name srcF s).evs ∧
      ∀ im, srcF.img = some im →
        FsEv.writeR final_name ∈ (step1 filename final_name srcF s).evs) := by
  constructor
  · intro he
    subst he
    exact step1_self filename srcF dstF s hdst hfresh
  · intro hne
    constructor
    · cases hsrc : srcF.img with
      | none =>
        unfold step1
        have h1 : decide (filename ≠ final_name) = true := by simpa using hne
        simp only [h1, Bool.or_true, hsrc, if_true]
        simp
      | some im =>
        rw [step1_diff_write filename final_name srcF im s hne hsrc]
        simp
    · intro im him
      rw [step1_diff_write filename final_name srcF im s hne him]
      simp

/-- C2 amended witness: a fresh target with matching paths is skipped
entirely, and a fresh target with a differing source path is decoded and
rewritten. -/
theorem C2_full_tier_step_amended_witness :
    step1 "c.webp" "c.webp" ⟨5, some (4, 4)⟩
        ⟨⟨[("c.webp", ⟨5, some (4, 4)⟩)], [], []⟩, 9⟩ =
      ⟨⟨⟨[("c.webp", ⟨5, some (4, 4)⟩)], [], []⟩, 9⟩, [.statR "c.webp"], true⟩ ∧
    FsEv.writeR "c.webp" ∈
      (step1 "c.png" "c.webp" ⟨5, some (4, 4)⟩
        ⟨⟨[("c.png", ⟨5, some (4, 4)⟩), ("c.webp", ⟨7, some (4, 4)⟩)], [], []⟩, 9⟩).evs := by
  constructor
  · exact (C2_full_tier_step_amended "c.webp" "c.webp" ⟨5, some (4, 4)⟩ ⟨5, some (4, 4)⟩
      ⟨⟨[("c.webp", ⟨5, some (4, 4)⟩)], [], []⟩, 9⟩ (by decide) (by decide)).1 rfl
  · exact ((C2_full_tier_step_amended "c.png" "c.webp" ⟨5, some (4, 4)⟩ ⟨7, some (4, 4)⟩
      ⟨⟨[("c.png", ⟨5, some (4, 4)⟩), ("c.webp", ⟨7, some (4, 4)⟩)], [], []⟩, 9⟩
      (by decide) (by decide)).2 (by decide)).2 (4, 4) rfl

/-- C7 counterexample: the manifest holds keys `9.webp` and `4.webp`, but
only `3.webp` and `9.webp` exist on disk; renaming `9.webp` to `4.webp`
succeeds (the destination file does not exist), yet the rekey collapses two
manifest entries into one: the count drops from 2 to 1. -/
theorem C7_manifest_count_cex :
    (perform_rename_set
        ⟨[("3.webp", ⟨0, some (1, 1)⟩), ("9.webp", ⟨1, some (1, 1)⟩)], [], []⟩
        false "9.webp" "4.webp").ok = true ∧
    ([("9.webp", "a"), ("4.webp", "b")] : Manifest).length = 2 ∧
    (rekey [("9.webp", "a"), ("4.webp", "b")] "9.webp" "4.webp").length = 1 := by decide

/-- C7 amended: for every manifest whose keys are distinct and do not
already contain the destination name, and every rename pair that
`perform_rename_set` reports successful, the rekey preserves the entry
count, moves the source entry's value to the destination key, and leaves
every other entry untouched (no entry dropped, none duplicated). -/
theorem C7_manifest_count_preserved (d : Dirs) (dry : Bool) (m : Manifest)
    (s t : String)
    (hnd : (akeys m).Nodup) (ht : alookup m t = none)
    (hok : (perform_rename_set d dry s t).ok = true) :
    (rekey m s t).length = m.length ∧
    alookup (rekey m s t) t = alookup m s ∧
    (∀ k, k ≠ s → k ≠ t → alookup (rekey m s t) k = alookup m k) := by
  refine ⟨rekey_length m s t hnd ht, rekey_lookup_dst m s t ht, ?_⟩
  intro k hks hkt
  exact rekey_lookup_ne m s t k hks hkt

/-- C7 amended witness: a concrete successful rename pair with a
fresh destination key preserves the manifest count and entries. -/
theorem C7_manifest_count_preserved_witness :
    (rekey [("9.webp", "a"), ("5.webp", "b")] "9.webp" "4.webp").length = 2 ∧
    alookup (rekey [("9.webp", "a"), ("5.webp", "b")] "9.webp" "4.webp") "4.webp" =
      some "a" := by
  have h := C7_manifest_count_preserved
    ⟨[("9.webp", ⟨1, some (1, 1)⟩)], [], []⟩ false
    [("9.webp", "a"), ("5.webp", "b")] "9.webp" "4.webp"
    (by decide) (by decide) (by decide)
  exact ⟨h.1, by rw [h.2.1]; decide⟩

/-- Concrete state for the C5 counterexample: source `d.jpg` (mtime 2),
existing full-tier target `d.webp` (mtime 8, so not stale), with fresh half
and quarter tiers. -/
def c5state : St :=
  ⟨⟨[("d.jpg", ⟨2, some (6, 6)⟩), ("d.webp", ⟨8, some (6, 6)⟩)],
    [("d.webp", ⟨9, some (3, 3)⟩)], [("d.webp", ⟨10, some (1, 1)⟩)]⟩, 30⟩

/-- C5 counterexample: at the full-vs-source boundary the skip rule fails —
the target `d.webp` exists and the upstream mtime (2) is at most the
target's (8), so by the claim regeneration must be skipped, yet the run
writes the full tier (the source path differs from the target path). -/
theorem C5_skip_iff_cex :
    alookup c5state.dirs.root "d.webp" = some ⟨8, some (6, 6)⟩ ∧
    alookup c5state.dirs.root "d.jpg" = some ⟨2, some (6, 6)⟩ ∧
    FsEv.writeR "d.webp" ∈ (convert_and_resize c5state "d.jpg" false).evs := by decide

/-- C5 amended: the exists-and-not-older skip rule holds verbatim at the
half-vs-full and quarter-vs-half boundaries (given a decodable upstream
tier, which every non-failing run provides); at the full-vs-source boundary
it does not: the full tier is written exactly when the source path differs
from the target path and the source decodes, regardless of freshness. -/
theorem C5_boundary_rules_amended (filename final_name : String) (srcF : FileData) :
    (∀ s : St,
      (FsEv.writeR final_name ∈ (step1 filename final_name srcF s).evs ↔
        filename ≠ final_name ∧ srcF.img.isSome = true)) ∧
    (∀ s : St, ∀ ff : FileData, alookup s.dirs.root final_name = some ff →
      ff.img.isSome = true →
      (FsEv.writeH final_name ∈ (step2 final_name s).evs ↔
        ¬ ∃ hf, alookup s.dirs.halfd final_name = some hf ∧ ff.mtime ≤ hf.mtime)) ∧
    (∀ s : St, ∀ hf : FileData, alookup s.dirs.halfd final_name = some hf →
      hf.img.isSome = true →
      (FsEv.writeQ final_name ∈ (step3 final_name s).evs ↔
        ¬ ∃ qf, alookup s.dirs.quartd final_name = some qf ∧ hf.mtime ≤ qf.mtime)) := by
  refine ⟨?_, ?_, ?_⟩
  · intro s
    by_cases hne : filename = final_name
    · subst hne
      unfold step1
      have hd : decide (filename ≠ filename) = false := by simp
      simp only [hd, Bool.or_false]
      constructor
      · intro hmem
        exfalso
        revert hmem
        split
        · cases srcF.img <;> simp
        · simp
      · intro h
        exact absurd rfl h.1
    · cases him : srcF.img with
      | none =>
        unfold step1
        have h1 : decide (filename ≠ final_name) = true := by simpa using hne
        simp only [h1, Bool.or_true, him, if_true]
        simp [hne, him]
      | some im =>
        rw [step1_diff_write filename final_name srcF im s hne him]
        simp [hne, him]
  · intro s ff hff him
    obtain ⟨im, him2⟩ := Option.isSome_iff_exists.mp him
    cases hhalf : alookup s.dirs.halfd final_name with
    | none =>
      rw [step2_regen_of_missing final_name ff im s hhalf hff him2]
      simp [hhalf]
    | some hf =>
      by_cases hle : ff.mtime ≤ hf.mtime
      · rw [step2_fresh final_name ff hf s hhalf hff hle]
        simp [hhalf, hle]
      · rw [step2_regen_of_stale final_name ff hf im s hhalf hff hle him2]
        simp [hhalf, hle]
  · intro s hf hh him
    obtain ⟨im, him2⟩ := Option.isSome_iff_exists.mp him
    cases hq : alookup s.dirs.quartd final_name with
    | none =>
      rw [step3_regen_of_missing final_name hf im s hq hh him2]
      simp [hq]
    | some qf =>
      by_cases hle : hf.mtime ≤ qf.mtime
      · rw [step3_fresh final_name hf qf s hq hh hle]
        simp [hq, hle]
      · rw [step3_regen_of_stale final_name hf qf im s hq hh hle him2]
        simp [hq, hle]

/-- C5 amended witness: concrete states exercising each boundary — a
differing source path writes the full tier even though fresh, a missing half
tier is regenerated, and a missing quarter tier is regenerated. -/
theorem C5_boundary_rules_amended_witness :
    FsEv.writeR "e.webp" ∈
      (step1 "e.png" "e.webp" ⟨0, some (4, 4)⟩
        ⟨⟨[("e.png", ⟨0, some (4, 4)⟩), ("e.webp", ⟨6, some (4, 4)⟩)], [], []⟩, 7⟩).evs ∧
    FsEv.writeH "e.webp" ∈
      (step2 "e.webp" ⟨⟨[("e.webp", ⟨3, some (4, 4)⟩)], [], []⟩, 7⟩).evs ∧
    FsEv.writeQ "e.webp" ∈
      (step3 "e.webp" ⟨⟨[], [("e.webp", ⟨3, some (2, 2)⟩)], []⟩, 7⟩).evs := by
  refine ⟨?_, ?_, ?_⟩
  · exact ((C5_boundary_rules_amended "e.png" "e.webp" ⟨0, some (4, 4)⟩).1
      ⟨⟨[("e.png", ⟨0, some (4, 4)⟩), ("e.webp", ⟨6, some (4, 4)⟩)], [], []⟩, 7⟩).mpr
      ⟨by decide, rfl⟩
  · exact ((C5_boundary_rules_amended "e.png" "e.webp" ⟨0, some (4, 4)⟩).2.1
      ⟨⟨[("e.webp", ⟨3, some (4, 4)⟩)], [], []⟩, 7⟩ ⟨3, some (4, 4)⟩ (by decide) rfl).mpr
      (by simp [alookup])
  · exact ((C5_boundary_rules_amended "e.png" "e.webp" ⟨0, some (4, 4)⟩).2.2
      ⟨⟨[], [("e.webp", ⟨3, some (2, 2)⟩)], []⟩, 7⟩ ⟨3, some (2, 2)⟩ (by decide) rfl).mpr
      (by simp [alookup])

/-- Arithmetic of two successive halvings with a one-pixel floor: halving
the already-floored half again equals the directly floored quarter. -/
theorem half_of_half (w : Nat) : max 1 (max 1 (w / 2) / 2) = max 1 (w / 4) := by
  omega

/-- Concrete-shape state for C6: one full-resolution asset `1.webp` of
dimensions `W × H`, with no half or quarter tier yet. -/
def c6state (mt c W H : Nat) : St :=
  ⟨⟨[("1.webp", ⟨mt, some (W, H)⟩)], [], []⟩, c⟩

/-- C6: for a full-resolution image of size `W × H` (`W, H ≥ 1`), the run
produces the half tier at `(max 1 (W/2), max 1 (H/2))` and the quarter tier
at `(max 1 (W/4), max 1 (H/4))`, the quarter being computed by opening and
halving the half tier (an `openH` decode, written strictly after the half
tier), not from the full image. -/
theorem C6_chained_dims (mt c W H : Nat) (hW : 1 ≤ W) (hH : 1 ≤ H) :
    alookup (convert_and_resize (c6state mt c W H) "1.webp" false).st.dirs.halfd "1.webp" =
      some ⟨c, some (max 1 (W / 2), max 1 (H / 2))⟩ ∧
    alookup (convert_and_resize (c6state mt c W H) "1.webp" false).st.dirs.quartd "1.webp" =
      some ⟨c + 1, some (max 1 (W / 4), max 1 (H / 4))⟩ ∧
    FsEv.openH "1.webp" ∈ (convert_and_resize (c6state mt c W H) "1.webp" false).evs ∧
    (convert_and_resize (c6state mt c W H) "1.webp" false).result =
      some ("1.webp", "1.webp") := by
  have hfin : finalNameOf "1.webp" = "1.webp" := by decide
  refine ⟨?_, ?_, ?_, ?_⟩ <;>
    simp [convert_and_resize, step1, step2, step3, regenHalf, regenQuarter,
      c6state, aset, alookup, hfin, half_of_half]

theorem rekey_lookup_dst_of_some (m : Manifest) (s t v : String)
    (hs : alookup m s = some v) :
    alookup (rekey m s t) t = some v := by
  unfold rekey
  rw [hs]
  exact alookup_aset_self _ _ _

theorem fillGaps_neg (dry : Bool) (gaps : List Nat) (d : Dirs) (m : Manifest)
    (nums : List Nat) (curr : Int) (h : curr < 0) :
    fillGaps dry gaps d m nums curr = (d, m, nums, []) := by
  cases gaps with
  | nil => rfl
  | cons g rest =>
    rw [fillGaps]
    rw [if_pos h]

theorem fillGaps_two_then_stop (dry : Bool) (g1 g2 : Nat) (rest : List Nat) (d : Dirs)
    (m : Manifest) (n0 n1 : Nat) (r1 r2 : RRes)
    (h1 : ¬ n1 < g1) (h2 : ¬ n0 < g2)
    (hr1 : perform_rename_set d dry (natToStr n1 ++ ".webp") (natToStr g1 ++ ".webp") = r1)
    (hok1 : r1.ok = true)
    (hr2 : perform_rename_set r1.dirs dry (natToStr n0 ++ ".webp") (natToStr g2 ++ ".webp") = r2)
    (hok2 : r2.ok = true) :
    fillGaps dry (g1 :: g2 :: rest) d m [n0, n1] 1 =
      (r2.dirs,
       rekey (rekey m (natToStr n1 ++ ".webp") (natToStr g1 ++ ".webp"))
         (natToStr n0 ++ ".webp") (natToStr g2 ++ ".webp"),
       [g2, g1], r1.evs ++ r2.evs) := by
  simp [fillGaps, hr1, hok1, hr2, hok2, h1, h2, fillGaps_neg]

/-- Dirs for the C1 scenario: the root tier holds exactly the numeric files
`3.webp` and `9.webp`, with their half and quarter counterparts. -/
def c1dirs (a b ch dh e f : FileData) : Dirs :=
  ⟨[("3.webp", a), ("9.webp", b)], [("3.webp", ch), ("9.webp", dh)],
   [("3.webp", e), ("9.webp", f)]⟩

/-- C1 counterexample: on the root holding exactly `3.webp` and `9.webp`,
renumbering does not leave `3.webp` in place and does not produce `4.webp`:
both names are gone afterwards (the gap list starts at 1, so `9.webp` moved
to `1.webp` and `3.webp` to `2.webp`). -/
theorem C1_renumber_scenario_cex :
    alookup (standardize_names_and_fill_gaps
      (c1dirs ⟨1, some (8, 8)⟩ ⟨2, some (8, 8)⟩ ⟨3, some (4, 4)⟩ ⟨4, some (4, 4)⟩
        ⟨5, some (2, 2)⟩ ⟨6, some (2, 2)⟩)
      [("9.webp", "orig9"), ("3.webp", "orig3")] false).dirs.root "3.webp" = none ∧
    alookup (standardize_names_and_fill_gaps
      (c1dirs ⟨1, some (8, 8)⟩ ⟨2, some (8, 8)⟩ ⟨3, some (4, 4)⟩ ⟨4, some (4, 4)⟩
        ⟨5, some (2, 2)⟩ ⟨6, some (2, 2)⟩)
      [("9.webp", "orig9"), ("3.webp", "orig3")] false).dirs.root "4.webp" = none := by decide

set_option maxHeartbeats 1000000 in
/-- C1 amended: with the root tier holding exactly `3.webp` and `9.webp`
(plus half/quarter counterparts), the gap list is `[1, 2, 4, ..., 8]`, so
renumbering renames `9.webp` to `1.webp` and `3.webp` to `2.webp` across all
three trees; the manifest value previously under `9.webp` ends up under
`1.webp` and the one under `3.webp` under `2.webp`; the returned total
is 2. -/
theorem C1_renumber_scenario_amended (a b ch dh e f : FileData) (m : Manifest)
    (v9 v3 : String)
    (h9 : alookup m "9.webp" = some v9) (h3 : alookup m "3.webp" = some v3) :
    (standardize_names_and_fill_gaps (c1dirs a b ch dh e f) m false).dirs =
      ⟨[("1.webp", b), ("2.webp", a)], [("1.webp", dh), ("2.webp", ch)],
       [("1.webp", f), ("2.webp", e)]⟩ ∧
    alookup (standardize_names_and_fill_gaps (c1dirs a b ch dh e f) m false).manifest
      "1.webp" = some v9 ∧
    alookup (standardize_names_and_fill_gaps (c1dirs a b ch dh e f) m false).manifest
      "2.webp" = some v3 ∧
    (standardize_names_and_fill_gaps (c1dirs a b ch dh e f) m false).total = 2 := by
  have hD1 : perform_rename_set (c1dirs a b ch dh e f) false (natToStr 9 ++ ".webp")
      (natToStr 1 ++ ".webp") =
      ⟨⟨[("3.webp", a), ("1.webp", b)], [("3.webp", ch), ("1.webp", dh)],
        [("3.webp", e), ("1.webp", f)]⟩, true,
       [.statR "1.webp", .statR "9.webp", .renameR "9.webp" "1.webp",
        .statH "9.webp", .renameH "9.webp" "1.webp",
        .statQ "9.webp", .renameQ "9.webp" "1.webp"]⟩ := rfl
  have hD2 : perform_rename_set
      (⟨[("3.webp", a), ("1.webp", b)], [("3.webp", ch), ("1.webp", dh)],
        [("3.webp", e), ("1.webp", f)]⟩ : Dirs)
      false (natToStr 3 ++ ".webp") (natToStr 2 ++ ".webp") =
      ⟨⟨[("1.webp", b), ("2.webp", a)], [("1.webp", dh), ("2.webp", ch)],
        [("1.webp", f), ("2.webp", e)]⟩, true,
       [.statR "2.webp", .statR "3.webp", .renameR "3.webp" "2.webp",
        .statH "3.webp", .renameH "3.webp" "2.webp",
        .statQ "3.webp", .renameQ "3.webp" "2.webp"]⟩ := rfl
  have hfill := fillGaps_two_then_stop false 1 2 [4, 5, 6, 7, 8] (c1dirs a b ch dh e f) m 3 9
    _ _ (by decide) (by decide) hD1 rfl hD2 rfl
  have hn9 : natToStr 9 ++ ".webp" = "9.webp" := rfl
  have hn1 : natToStr 1 ++ ".webp" = "1.webp" := rfl
  have hn3 : natToStr 3 ++ ".webp" = "3.webp" := rfl
  have hn2 : natToStr 2 ++ ".webp" = "2.webp" := rfl
  rw [hn9, hn1, hn3, hn2] at hfill
  have e : standardize_names_and_fill_gaps (c1dirs a b ch dh e f) m false =
      ⟨⟨[("1.webp", b), ("2.webp", a)], [("1.webp", dh), ("2.webp", ch)],
        [("1.webp", f), ("2.webp", e)]⟩,
       rekey (rekey m "9.webp" "1.webp") "3.webp" "2.webp", 2,
       [.statR "1.webp", .statR "9.webp", .renameR "9.webp" "1.webp",
        .statH "9.webp", .renameH "9.webp" "1.webp",
        .statQ "9.webp", .renameQ "9.webp" "1.webp",
        .statR "2.webp", .statR "3.webp", .renameR "3.webp" "2.webp",
        .statH "3.webp", .renameH "3.webp" "2.webp",
        .statQ "3.webp", .renameQ "3.webp" "2.webp"]⟩ := by
    unfold standardize_names_and_fill_gaps
    have hfiles : (akeys (c1dirs a b ch dh e f).root).filter lowerEndsWebp =
        ["3.webp", "9.webp"] := rfl
    have hpr : partitionFiles ["3.webp", "9.webp"] = ([(3, "3.webp"), (9, "9.webp")], []) := rfl
    have hmap : List.map Prod.fst [((3 : Nat), "3.webp"), (9, "9.webp")] = [3, 9] := rfl
    have hsort : sortNat [3, 9] = [3, 9] := rfl
    have hgaps : gapsOf [3, 9] = [1, 2, 4, 5, 6, 7, 8] := rfl
    have hlen : ((([3, 9] : List Nat).length : Int) - 1) = 1 := rfl
    have hded : sortNat (dedupNat [2, 1]) = [1, 2] := rfl
    have hlast : ([1, 2] : List Nat).getLast? = some 2 := rfl
    simp only [hfiles, hpr, hmap, hsort, hgaps, hlen, hfill, hded, hlast, renameOthers]
    simp
  have hm1 : alookup (rekey m "9.webp" "1.webp") "1.webp" = some v9 :=
    rekey_lookup_dst_of_some m "9.webp" "1.webp" v9 h9
  have hm3 : alookup (rekey m "9.webp" "1.webp") "3.webp" = some v3 := by
    rw [rekey_lookup_ne m "9.webp" "1.webp" "3.webp" (by decide) (by decide)]
    exact h3
  refine ⟨?_, ?_, ?_, ?_⟩
  · rw [e]
  · rw [e]
    show alookup (rekey (rekey m "9.webp" "1.webp") "3.webp" "2.webp") "1.webp" = some v9
    rw [rekey_lookup_ne _ "3.webp" "2.webp" "1.webp" (by decide) (by decide)]
    exact hm1
  · rw [e]
    show alookup (rekey (rekey m "9.webp" "1.webp") "3.webp" "2.webp") "2.webp" = some v3
    exact rekey_lookup_dst_of_some _ "3.webp" "2.webp" v3 hm3
  · rw [e]

/-- C1 amended witness: the scenario at a concrete manifest. -/
theorem C1_renumber_scenario_amended_witness :
    alookup (standardize_names_and_fill_gaps
      (c1dirs ⟨1, some (8, 8)⟩ ⟨2, some (8, 8)⟩ ⟨3, some (4, 4)⟩ ⟨4, some (4, 4)⟩
        ⟨5, some (2, 2)⟩ ⟨6, some (2, 2)⟩)
      [("9.webp", "orig9"), ("3.webp", "orig3")] false).manifest "1.webp" = some "orig9" ∧
    (standardize_names_and_fill_gaps
      (c1dirs ⟨1, some (8, 8)⟩ ⟨2, some (8, 8)⟩ ⟨3, some (4, 4)⟩ ⟨4, some (4, 4)⟩
        ⟨5, some (2, 2)⟩ ⟨6, some (2, 2)⟩)
      [("9.webp", "orig9"), ("3.webp", "orig3")] false).total = 2 := by
  have h := C1_renumber_scenario_amended ⟨1, some (8, 8)⟩ ⟨2, some (8, 8)⟩ ⟨3, some (4, 4)⟩
    ⟨4, some (4, 4)⟩ ⟨5, some (2, 2)⟩ ⟨6, some (2, 2)⟩
    [("9.webp", "orig9"), ("3.webp", "orig3")] "orig9" "orig3" (by decide) (by decide)
  exact ⟨h.2.1, h.2.2.2⟩

/-- C6 witness: a concrete 10 x 7 image yields a 5 x 3 half tier and a
2 x 1 quarter tier. -/
theorem C6_chained_dims_witness :
    alookup (convert_and_resize (c6state 0 5 10 7) "1.webp" false).st.dirs.halfd "1.webp" =
      some ⟨5, some (5, 3)⟩ ∧
    alookup (convert_and_resize (c6state 0 5 10 7) "1.webp" false).st.dirs.quartd "1.webp" =
      some ⟨6, some (2, 1)⟩ := by
  have h := C6_chained_dims 0 5 10 7 (by decide) (by decide)
  exact ⟨h.1, h.2.1⟩

/-! Frame lemmas: the renumbering pass never touches a file whose lowercased
name does not end in `.webp`. -/

theorem fsRename_frame (m : List (String × FileData)) (s t f : String)
    (hs : s ≠ f) (ht : t ≠ f) :
    alookup (fsRename m s t) f = alookup m f := by
  unfold fsRename
  cases hm : alookup m s with
  | none => rfl
  | some v =>
    rw [alookup_aset_ne _ _ _ _ ht]
    exact alookup_aremove_ne _ _ _ hs

theorem perform_rename_set_frame (d : Dirs) (dry : Bool) (src dst f : String)
    (hs : src ≠ f) (ht : dst ≠ f) :
    alookup (perform_rename_set d dry src dst).dirs.root f = alookup d.root f ∧
    alookup (perform_rename_set d dry src dst).dirs.halfd f = alookup d.halfd f ∧
    alookup (perform_rename_set d dry src dst).dirs.quartd f = alookup d.quartd f := by
  unfold perform_rename_set
  split
  · exact ⟨rfl, rfl, rfl⟩
  · refine ⟨?_, ?_, ?_⟩ <;>
    · simp only []
      split
      · split
        · rfl
        · exact fsRename_frame _ _ _ _ hs ht
      · rfl

theorem lowerEndsWebp_append_webp (x : String) :
    lowerEndsWebp (x ++ ".webp") = true := by
  unfold lowerEndsWebp
  have hd : (x ++ ".webp").data = x.data ++ webpChars := by
    rw [String.data_append]
    rfl
  rw [hd, List.map_append]
  have hw : webpChars.map Char.toLower = webpChars := rfl
  rw [hw]
  have : webpChars <:+ (x.data.map Char.toLower ++ webpChars) := List.suffix_append _ _
  exact List.isSuffixOf_iff_suffix.mpr this

theorem ne_of_lowerEndsWebp (x f : String) (hx : lowerEndsWebp x = true)
    (hf : lowerEndsWebp f = false) : x ≠ f := by
  intro he
  rw [he, hf] at hx
  exact Bool.noConfusion hx

theorem fillGaps_frame (dry : Bool) (gaps : List Nat) (d : Dirs) (m : Manifest)
    (nums : List Nat) (curr : Int) (f : String) (hf : lowerEndsWebp f = false) :
    alookup (fillGaps dry gaps d m nums curr).1.root f = alookup d.root f ∧
    alookup (fillGaps dry gaps d m nums curr).1.halfd f = alookup d.halfd f ∧
    alookup (fillGaps dry gaps d m nums curr).1.quartd f = alookup d.quartd f := by
  induction gaps generalizing d m nums curr with
  | nil => exact ⟨rfl, rfl, rfl⟩
  | cons gap rest ih =>
    rw [fillGaps]
    by_cases hc : curr < 0
    · rw [if_pos hc]
      exact ⟨rfl, rfl, rfl⟩
    · rw [if_neg hc]
      by_cases hlt : nums.getD curr.toNat 0 < gap
      · rw [if_pos hlt]
        exact ⟨rfl, rfl, rfl⟩
      · rw [if_neg hlt]
        simp only []
        have hsrc : natToStr (nums.getD curr.toNat 0) ++ ".webp" ≠ f :=
          ne_of_lowerEndsWebp _ f (lowerEndsWebp_append_webp _) hf
        have hdst : natToStr gap ++ ".webp" ≠ f :=
          ne_of_lowerEndsWebp _ f (lowerEndsWebp_append_webp _) hf
        have hp := perform_rename_set_frame d dry
          (natToStr (nums.getD curr.toNat 0) ++ ".webp") (natToStr gap ++ ".webp") f hsrc hdst
        have hr := ih (perform_rename_set d dry
          (natToStr (nums.getD curr.toNat 0) ++ ".webp") (natToStr gap ++ ".webp")).dirs
          (if (perform_rename_set d dry (natToStr (nums.getD curr.toNat 0) ++ ".webp")
            (natToStr gap ++ ".webp")).ok then
              rekey m (natToStr (nums.getD curr.toNat 0) ++ ".webp") (natToStr gap ++ ".webp")
            else m)
          (nums.set curr.toNat gap) (curr - 1)
        exact ⟨hr.1.trans hp.1, hr.2.1.trans hp.2.1, hr.2.2.trans hp.2.2⟩

theorem renameOthers_frame (dry : Bool) (others : List String) (d : Dirs) (m : Manifest)
    (n : Nat) (f : String) (hf : lowerEndsWebp f = false)
    (ho : ∀ g ∈ others, lowerEndsWebp g = true) :
    alookup (renameOthers dry others d m n).1.root f = alookup d.root f ∧
    alookup (renameOthers dry others d m n).1.halfd f = alookup d.halfd f ∧
    alookup (renameOthers dry others d m n).1.quartd f = alookup d.quartd f := by
  induction others generalizing d m n with
  | nil => exact ⟨rfl, rfl, rfl⟩
  | cons g rest ih =>
    rw [renameOthers]
    simp only []
    have hsrc : g ≠ f := ne_of_lowerEndsWebp g f (ho g (List.mem_cons_self g rest)) hf
    have hdst : natToStr n ++ ".webp" ≠ f :=
      ne_of_lowerEndsWebp _ f (lowerEndsWebp_append_webp _) hf
    have hp := perform_rename_set_frame d dry g (natToStr n ++ ".webp") f hsrc hdst
    have hr := ih (perform_rename_set d dry g (natToStr n ++ ".webp")).dirs
      (if (perform_rename_set d dry g (natToStr n ++ ".webp")).ok then
        rekey m g (natToStr n ++ ".webp") else m) (n + 1)
      (fun x hx => ho x (List.mem_cons_of_mem g hx))
    exact ⟨hr.1.trans hp.1, hr.2.1.trans hp.2.1, hr.2.2.trans hp.2.2⟩

theorem partitionFoldl_snd_mem (files : List String)
    (acc : List (Nat × String) × List String) (x : String)
    (hx : x ∈ (files.foldl (fun acc f =>
      let name := splitextBase f
      if pyIsDigit name then (numInsert acc.1 (strVal name.data) f, acc.2)
      else (acc.1, acc.2 ++ [f])) acc).2) :
    x ∈ acc.2 ∨ x ∈ files := by
  induction files generalizing acc with
  | nil => exact Or.inl hx
  | cons g rest ih =>
    rw [List.foldl_cons] at hx
    rcases ih _ hx with h1 | h1
    · by_cases hg : pyIsDigit (splitextBase g)
      · simp only [hg, if_true] at h1
        exact Or.inl h1
      · simp only [hg, if_false] at h1
        rcases List.mem_append.mp h1 with h2 | h2
        · exact Or.inl h2
        · simp at h2
          subst h2
          exact Or.inr (List.mem_cons_self _ _)
    · exact Or.inr (List.mem_cons_of_mem _ h1)

theorem partitionFiles_snd_mem (files : List String) (x : String)
    (hx : x ∈ (partitionFiles files).2) : x ∈ files := by
  rcases partitionFoldl_snd_mem files ([], []) x hx with h1 | h1
  · simp at h1
  · exact h1

/-! Decomposition of `standardize_names_and_fill_gaps` into named stages
(definitional, used by several proofs). -/

/-- Stage: the `.webp` files of the root listing. -/
def stdFiles (d : Dirs) : List String := (akeys d.root).filter lowerEndsWebp

/-- Stage: the numbered/others partition. -/
def stdPr (d : Dirs) : List (Nat × String) × List String := partitionFiles (stdFiles d)

/-- Stage: the sorted numeric slots. -/
def stdNums (d : Dirs) : List Nat := sortNat ((stdPr d).1.map Prod.fst)

/-- Stage: the gap-filling run. -/
def stdFill (d : Dirs) (m : Manifest) (dry : Bool) :
    Dirs × Manifest × List Nat × List FsEv :=
  fillGaps dry (gapsOf (stdNums d)) d m (stdNums d) (((stdNums d).length : Int) - 1)

/-- Stage: the next fresh slot number after gap filling. -/
def stdNext (d : Dirs) (m : Manifest) (dry : Bool) : Nat :=
  match (sortNat (dedupNat (stdFill d m dry).2.2.1)).getLast? with
  | none => 1
  | some last => last + 1

/-- Stage: the renaming of the non-numeric files. -/
def stdOthersRun (d : Dirs) (m : Manifest) (dry : Bool) :
    Dirs × Manifest × Nat × List FsEv :=
  renameOthers dry (stdPr d).2 (stdFill d m dry).1 (stdFill d m dry).2.1 (stdNext d m dry)

theorem standardize_decompose (d : Dirs) (m : Manifest) (dry : Bool) :
    standardize_names_and_fill_gaps d m dry =
      ⟨(stdOthersRun d m dry).1, (stdOthersRun d m dry).2.1,
       (stdOthersRun d m dry).2.2.1 - 1,
       (stdFill d m dry).2.2.2 ++ (stdOthersRun d m dry).2.2.2⟩ := rfl

/-- C9: the renumbering step only considers files whose lowercased name ends
in `.webp`: any root-tier file with another name is not in the considered
file list, and its entry in each of the three trees is left exactly as it
was (never renamed, never overwritten, never assigned a slot). -/
theorem C9_non_webp_untouched (d : Dirs) (m : Manifest) (dry : Bool) (f : String)
    (hf : lowerEndsWebp f = false) :
    f ∉ (akeys d.root).filter lowerEndsWebp ∧
    alookup (standardize_names_and_fill_gaps d m dry).dirs.root f = alookup d.root f ∧
    alookup (standardize_names_and_fill_gaps d m dry).dirs.halfd f = alookup d.halfd f ∧
    alookup (standardize_names_and_fill_gaps d m dry).dirs.quartd f = alookup d.quartd f := by
  have hmem : f ∉ (akeys d.root).filter lowerEndsWebp := by
    intro hin
    have := (List.mem_filter.mp hin).2
    rw [hf] at this
    exact Bool.noConfusion this
  have hothers : ∀ g ∈ (stdPr d).2, lowerEndsWebp g = true := by
    intro g hg
    have := partitionFiles_snd_mem (stdFiles d) g hg
    exact (List.mem_filter.mp this).2
  have hfill := fillGaps_frame dry (gapsOf (stdNums d)) d m (stdNums d)
    (((stdNums d).length : Int) - 1) f hf
  have hoth := renameOthers_frame dry (stdPr d).2 (stdFill d m dry).1
    (stdFill d m dry).2.1 (stdNext d m dry) f hf hothers
  rw [standardize_decompose]
  exact ⟨hmem, (hoth.1.trans hfill.1), (hoth.2.1.trans hfill.2.1),
    (hoth.2.2.trans hfill.2.2)⟩

/-- C9 witness: `config.json` (and any non-`.webp` file) survives a
renumbering pass untouched. -/
theorem C9_non_webp_untouched_witness :
    alookup (standardize_names_and_fill_gaps
      ⟨[("config.json", ⟨0, none⟩), ("photo.webp", ⟨1, some (2, 2)⟩)], [], []⟩
      [] false).dirs.root "config.json" = some ⟨0, none⟩ := by
  have h := C9_non_webp_untouched
    ⟨[("config.json", ⟨0, none⟩), ("photo.webp", ⟨1, some (2, 2)⟩)], [], []⟩
    [] false "config.json" (by decide)
  rw [h.2.1]
  decide

/-! Membership lemmas for the discovery sort and dedup. -/

theorem mem_insertStr {x y : String} {l : List String} :
    y ∈ insertStr x l ↔ y = x ∨ y ∈ l := by
  induction l with
  | nil => simp [insertStr]
  | cons a rest ih =>
    unfold insertStr
    by_cases h : strLtB a.data x.data
    · simp [h, ih]
      tauto
    · simp [h]

theorem mem_sortStr {y : String} {l : List String} : y ∈ sortStr l ↔ y ∈ l := by
  induction l with
  | nil => simp [sortStr]
  | cons a rest ih =>
    unfold sortStr at ih ⊢
    rw [List.foldr_cons, mem_insertStr, ih, List.mem_cons]

theorem mem_dedupStr {y : String} {l : List String} : y ∈ dedupStr l ↔ y ∈ l := by
  induction l with
  | nil => simp [dedupStr]
  | cons a rest ih =>
    unfold dedupStr
    by_cases h : a ∈ rest
    · rw [if_pos h, ih, List.mem_cons]
      constructor
      · exact Or.inr
      · rintro (rfl | hy)
        · exact h
        · exact hy
    · rw [if_neg h, List.mem_cons, ih, List.mem_cons]

theorem discover_mem (root : List (String × FileData)) (m : Manifest) (f : String)
    (hf : f ∈ discover root m) :
    f ∈ akeys root ∧ globMatchB f = true ∧ (m.any (fun p => p.2 == f)) = false := by
  unfold discover at hf
  have h1 := List.mem_filter.mp hf
  have h2 := mem_sortStr.mp h1.1
  have h3 := mem_dedupStr.mp h2
  have h4 := List.mem_filter.mp h3
  refine ⟨h4.1, h4.2, ?_⟩
  have hnot := h1.2
  cases hany : m.any (fun p => p.2 == f)
  · rfl
  · rw [hany] at hnot
    exact absurd hnot (by decide)

/-- A root-tier `.webp` asset that is its own conversion target, is already
a manifest key, and whose half and quarter tiers exist and are fresh.  Such
an asset makes `convert_and_resize` a read-only no-op. -/
def selfFresh (d : Dirs) (m : Manifest) (f : String) : Prop :=
  finalNameOf f = f ∧ (alookup m f).isSome = true ∧
  ∃ fd hf qf, alookup d.root f = some fd ∧ alookup d.halfd f = some hf ∧
    alookup d.quartd f = some qf ∧ fd.mtime ≤ hf.mtime ∧ hf.mtime ≤ qf.mtime

theorem convert_noop (s : St) (f : String) (fd hf qf : FileData)
    (hself : finalNameOf f = f)
    (hr : alookup s.dirs.root f = some fd)
    (hh : alookup s.dirs.halfd f = some hf)
    (hq : alookup s.dirs.quartd f = some qf)
    (h1 : fd.mtime ≤ hf.mtime) (h2 : hf.mtime ≤ qf.mtime) :
    convert_and_resize s f false =
      ⟨s, some (f, f), [.statR f, .statR f, .statH f, .statR f, .statQ f, .statH f]⟩ := by
  unfold convert_and_resize
  simp only [hself, hr, step1_self f fd fd s hr (le_refl _),
    step2_fresh f fd hf s hh hr h1, step3_fresh f hf qf s hq hh h2]
  simp

theorem runTasks_noop (ts : List String) (s : St) (m : Manifest)
    (h : ∀ f ∈ ts, selfFresh s.dirs m f) :
    (runTasks false ts s m).st = s ∧ (runTasks false ts s m).manifest = m ∧
    (runTasks false ts s m).evs.filter FsEv.isMut = [] := by
  induction ts with
  | nil => exact ⟨rfl, rfl, rfl⟩
  | cons f rest ih =>
    obtain ⟨hself, hm, fd, hf, qf, hr, hh, hq, h1, h2⟩ := h f (List.mem_cons_self f rest)
    have hnone : (alookup m f).isNone = false := by
      cases halm : alookup m f
      · rw [halm] at hm
        exact absurd hm (by decide)
      · rfl
    rw [runTasks]
    simp only [convert_noop s f fd hf qf hself hr hh hq h1 h2, hnone,
      Bool.false_eq_true, if_false]
    have hrest := ih (fun g hg => h g (List.mem_cons_of_mem f hg))
    refine ⟨hrest.1, hrest.2.1, ?_⟩
    simp only [List.filter_append, hrest.2.2]
    rfl

theorem standardize_noop (d : Dirs) (m : Manifest) (dry : Bool)
    (h2 : (stdPr d).2 = []) (hg : gapsOf (stdNums d) = []) :
    standardize_names_and_fill_gaps d m dry = ⟨d, m, stdNext d m dry - 1, []⟩ := by
  have hfill : stdFill d m dry = (d, m, stdNums d, []) := by
    unfold stdFill
    rw [hg]
    rfl
  have hoth : stdOthersRun d m dry = (d, m, stdNext d m dry, []) := by
    unfold stdOthersRun
    rw [h2, hfill]
    rfl
  rw [standardize_decompose, hoth, hfill]
  rfl

/-- The state a healthy completed run leaves behind: every discoverable root
file is either recorded as a manifest value (already ingested) or is a
self-fresh numeric asset already keyed in the manifest, there are no
non-numeric `.webp` files left, and the numeric slots have no gaps. -/
def runInv (d : Dirs) (m : Manifest) : Prop :=
  (∀ f ∈ akeys d.root, globMatchB f = true →
    ((m.any (fun p => p.2 == f)) = true ∨ selfFresh d m f)) ∧
  (stdPr d).2 = [] ∧ gapsOf (stdNums d) = []

/-- Concrete state for the C3 counterexample: two sources with the same stem
(`photo.jpg` and `photo.png`), both decodable. -/
def c3state : St :=
  ⟨⟨[("photo.jpg", ⟨0, some (4, 4)⟩), ("photo.png", ⟨1, some (4, 4)⟩)], [], []⟩, 10⟩

/-- C3 counterexample: running the pipeline twice on the unchanged root
`{photo.jpg, photo.png}` is not idempotent — the second run performs tier
writes (the `photo.png` conversion result was never recorded because
first-write-wins kept `photo.jpg` under the shared target key), and the
manifest changes. -/
theorem C3_idempotence_cex :
    ((process_directory (process_directory c3state [] false).st
        (process_directory c3state [] false).manifest false).evs.filter FsEv.isMut) ≠ [] ∧
    (process_directory (process_directory c3state [] false).st
        (process_directory c3state [] false).manifest false).manifest ≠
      (process_directory c3state [] false).manifest := by decide

/-- C3 amended: a pipeline run is a read-only no-op — zero writes and zero
renames, with the manifest returned unchanged — from every state satisfying
`runInv`: each discoverable root file is either recorded as a manifest value
or is a self-fresh `.webp` asset already keyed in the manifest, no
non-numeric `.webp` file remains, and the numeric slots are gapless.  A
successful, collision-free first run establishes exactly this state, but a
root with two sources sharing a stem (see the counterexample) escapes it, so
unconditional second-run idempotence fails. -/
theorem C3_second_run_noop (s : St) (m : Manifest) (hinv : runInv s.dirs m) :
    (process_directory s m false).st = s ∧
    (process_directory s m false).manifest = m ∧
    (process_directory s m false).evs.filter FsEv.isMut = [] := by
  have hpend : ∀ f ∈ discover s.dirs.root m, selfFresh s.dirs m f := by
    intro f hf
    obtain ⟨hmem, hglob, hknown⟩ := discover_mem s.dirs.root m f hf
    rcases hinv.1 f hmem hglob with hval | hsf
    · rw [hknown] at hval
      exact absurd hval (by decide)
    · exact hsf
  have hb := runTasks_noop (discover s.dirs.root m) s m hpend
  unfold process_directory
  simp only [hb.1, hb.2.1]
  rw [standardize_noop s.dirs m false hinv.2.1 hinv.2.2]
  refine ⟨rfl, rfl, ?_⟩
  simp only [List.filter_append, hb.2.2]
  rfl

/-- C3 amended witness: the state after ingesting `photo.png` into slot 1
satisfies the invariant, and a further run changes nothing. -/
theorem C3_second_run_noop_witness :
    (process_directory
      ⟨⟨[("photo.png", ⟨0, some (10, 7)⟩), ("1.webp", ⟨3, some (10, 7)⟩)],
        [("1.webp", ⟨4, some (5, 3)⟩)], [("1.webp", ⟨5, some (2, 1)⟩)]⟩, 6⟩
      [("1.webp", "photo.png")] false).manifest = [("1.webp", "photo.png")] ∧
    (process_directory
      ⟨⟨[("photo.png", ⟨0, some (10, 7)⟩), ("1.webp", ⟨3, some (10, 7)⟩)],
        [("1.webp", ⟨4, some (5, 3)⟩)], [("1.webp", ⟨5, some (2, 1)⟩)]⟩, 6⟩
      [("1.webp", "photo.png")] false).evs.filter FsEv.isMut = [] := by
  have h := C3_second_run_noop
    ⟨⟨[("photo.png", ⟨0, some (10, 7)⟩), ("1.webp", ⟨3, some (10, 7)⟩)],
      [("1.webp", ⟨4, some (5, 3)⟩)], [("1.webp", ⟨5, some (2, 1)⟩)]⟩, 6⟩
    [("1.webp", "photo.png")]
    ⟨by
      intro f hf hg
      simp [akeys] at hf
      rcases hf with rfl | rfl
      · exact Or.inl (by decide)
      · refine Or.inr ⟨by decide, by decide, ⟨3, some (10, 7)⟩, ⟨4, some (5, 3)⟩,
          ⟨5, some (2, 1)⟩, by decide, by decide, by decide, by decide, by decide⟩,
      by decide, by decide⟩
  exact ⟨h.2.1, h.2.2⟩

/-! Decimal rendering lemmas. -/

theorem digitChar_isDigit (d : Nat) (h : d < 10) : (Nat.digitChar d).isDigit = true := by
  interval_cases d <;> decide

theorem digitChar_toNat (d : Nat) (h : d < 10) : (Nat.digitChar d).toNat = 48 + d := by
  interval_cases d <;> decide

theorem strVal_append_singleton (l : List Char) (c : Char) :
    strVal (l ++ [c]) = strVal l * 10 + (c.toNat - 48) := by
  unfold strVal
  rw [List.foldl_append]
  rfl

theorem natDigitsAux_spec (fuel n : Nat) (h : n < fuel) :
    natDigitsAux fuel n ≠ [] ∧ (∀ c ∈ natDigitsAux fuel n, c.isDigit = true) ∧
    strVal (natDigitsAux fuel n) = n := by
  induction fuel generalizing n with
  | zero => omega
  | succ fuel ih =>
    rw [natDigitsAux]
    by_cases h10 : n < 10
    · rw [if_pos h10]
      refine ⟨by simp, ?_, ?_⟩
      · intro c hc
        simp only [List.mem_singleton] at hc
        subst hc
        exact digitChar_isDigit n h10
      · show strVal ([] ++ [Nat.digitChar n]) = n
        rw [strVal_append_singleton, digitChar_toNat n h10]
        simp [strVal]
    · rw [if_neg h10]
      have hlt : n / 10 < fuel := by
        have h1 : n / 10 < n := Nat.div_lt_self (by omega) (by omega)
        omega
      obtain ⟨hne, hdig, hval⟩ := ih (n / 10) hlt
      refine ⟨by simp, ?_, ?_⟩
      · intro c hc
        rcases List.mem_append.mp hc with h1 | h1
        · exact hdig c h1
        · simp only [List.mem_singleton] at h1
          subst h1
          exact digitChar_isDigit _ (Nat.mod_lt n (by omega))
      · rw [strVal_append_singleton, hval, digitChar_toNat _ (Nat.mod_lt n (by omega))]
        omega

theorem natToStr_data (n : Nat) : (natToStr n).data = natDigitsAux (n + 1) n := rfl

theorem natToStr_ne_nil (n : Nat) : (natToStr n).data ≠ [] :=
  (natDigitsAux_spec (n + 1) n (by omega)).1

theorem natToStr_all_digits (n : Nat) : ∀ c ∈ (natToStr n).data, c.isDigit = true :=
  (natDigitsAux_spec (n + 1) n (by omega)).2.1

theorem strVal_natToStr (n : Nat) : strVal (natToStr n).data = n :=
  (natDigitsAux_spec (n + 1) n (by omega)).2.2

theorem pyIsDigit_natToStr (n : Nat) : pyIsDigit (natToStr n) = true := by
  unfold pyIsDigit
  rw [Bool.and_eq_true]
  constructor
  · cases hd : (natToStr n).data with
    | nil => exact absurd hd (natToStr_ne_nil n)
    | cons c rest => rfl
  · rw [List.all_eq_true]
    exact natToStr_all_digits n

theorem natToStr_inj (a b : Nat) (h : natToStr a = natToStr b) : a = b := by
  have := congrArg (fun s => strVal s.data) h
  simpa [strVal_natToStr] using this

theorem natToStr_webp_inj (a b : Nat)
    (h : natToStr a ++ ".webp" = natToStr b ++ ".webp") : a = b := by
  have hd := congrArg String.data h
  rw [String.data_append, String.data_append] at hd
  have h2 : (natToStr a).data = (natToStr b).data := List.append_cancel_right hd
  have h3 := congrArg strVal h2
  rw [strVal_natToStr, strVal_natToStr] at h3
  exact h3

theorem natToStr_not_all_dots (n : Nat) :
    ((natToStr n).data.all (fun c => c == '.')) = false := by
  cases hd : (natToStr n).data with
  | nil => exact absurd hd (natToStr_ne_nil n)
  | cons c rest =>
    have hc : c.isDigit = true := by
      apply natToStr_all_digits
      rw [hd]
      exact List.mem_cons_self c rest
    have hne : (c == '.') = false := by
      cases hcc : (c == '.') with
      | false => rfl
      | true =>
        have hce : c = '.' := eq_of_beq hcc
        rw [hce] at hc
        exact absurd hc (by decide)
    simp [hne]

/-! Rebuild lemmas for `os.path.splitext` on derived target names. -/

theorem globMatchB_head (f : String) (h : globMatchB f = true) :
    ∃ c rest, f.data = c :: rest ∧ (c == '.') = false := by
  unfold globMatchB at h
  rw [Bool.and_eq_true] at h
  cases hd : f.data with
  | nil =>
    rw [hd] at h
    exact absurd h.1 (by decide)
  | cons c rest =>
    rw [hd] at h
    refine ⟨c, rest, rfl, ?_⟩
    have h1 : (c != '.') = true := h.1
    cases hq : (c == '.') with
    | false => rfl
    | true =>
      rw [show (c != '.') = !(c == '.') from rfl, hq] at h1
      exact absurd h1 (by decide)

theorem splitextData_append_webp (y : List Char)
    (hy : (y.all (fun c => c == '.')) = false) :
    splitextData (y ++ webpChars) = (y, webpChars) := by
  have hrev : (y ++ webpChars).reverse = ['p', 'b', 'e', 'w', '.'] ++ y.reverse := by
    rw [List.reverse_append]
    rfl
  have htake : List.takeWhile (fun c => c != '.') (['p', 'b', 'e', 'w', '.'] ++ y.reverse) =
      ['p', 'b', 'e', 'w'] := rfl
  have hdrop : List.dropWhile (fun c => c != '.') (['p', 'b', 'e', 'w', '.'] ++ y.reverse) =
      '.' :: y.reverse := rfl
  simp only [splitextData, hrev, htake, hdrop]
  rw [List.reverse_reverse, hy]
  simp
  rfl

theorem splitextBase_append_webp (y : String)
    (hy : (y.data.all (fun c => c == '.')) = false) :
    splitextBase (y ++ ".webp") = y := by
  unfold splitextBase
  have hdata : (y ++ ".webp").data = y.data ++ webpChars := by
    rw [String.data_append]
    rfl
  rw [hdata, splitextData_append_webp y.data hy]

theorem splitextBase_not_dots (f : String) (hglob : globMatchB f = true) :
    ((splitextBase f).data.all (fun c => c == '.')) = false := by
  obtain ⟨c, rest, hd, hc⟩ := globMatchB_head f hglob
  have hfall : (f.data.all (fun x => x == '.')) = false := by
    rw [hd]
    simp [hc]
  unfold splitextBase splitextData
  cases hdrop : f.data.reverse.dropWhile (fun c => c != '.') with
  | nil =>
    simp only [hdrop]
    exact hfall
  | cons x beforeRev =>
    simp only [hdrop]
    by_cases hall : (beforeRev.reverse.all (fun c => c == '.')) = true
    · rw [if_pos hall]
      exact hfall
    · rw [if_neg hall]
      cases hb : (beforeRev.reverse.all (fun c => c == '.')) with
      | false => rfl
      | true => exact absurd hb hall

theorem finalNameOf_eq_base_webp (f : String) :
    finalNameOf f = splitextBase f ++ ".webp" := rfl

theorem splitextBase_finalNameOf (f : String) (hglob : globMatchB f = true) :
    splitextBase (finalNameOf f) = splitextBase f :=
  splitextBase_append_webp (splitextBase f) (splitextBase_not_dots f hglob)

theorem finalNameOf_self_of_target (f : String) (hglob : globMatchB f = true) :
    finalNameOf (finalNameOf f) = finalNameOf f := by
  rw [finalNameOf_eq_base_webp (finalNameOf f), splitextBase_finalNameOf f hglob]
  rfl

theorem splitextBase_numeric_name (n : Nat) :
    splitextBase (natToStr n ++ ".webp") = natToStr n :=
  splitextBase_append_webp (natToStr n) (natToStr_not_all_dots n)

theorem ne_numeric_of_nonnum_base (x : String) (n : Nat)
    (hx : pyIsDigit (splitextBase x) = false) : x ≠ natToStr n ++ ".webp" := by
  intro he
  rw [he, splitextBase_numeric_name, pyIsDigit_natToStr] at hx
  exact Bool.noConfusion hx

theorem lowerEndsWebp_of_self (f : String) (h : lowerEndsWebp f = false) :
    finalNameOf f ≠ f := by
  intro he
  have : lowerEndsWebp (finalNameOf f) = true := lowerEndsWebp_append_webp (splitextBase f)
  rw [he, h] at this
  exact Bool.noConfusion this

/-! Key-list algebra and permutation facts used by the dense-numbering
proof. -/

theorem alookup_isSome_of_mem {α : Type} (m : List (String × α)) (x : String)
    (h : x ∈ akeys m) : (alookup m x).isSome = true := by
  cases hl : alookup m x with
  | none => exact absurd h ((alookup_eq_none_iff m x).mp hl)
  | some v => rfl

theorem akeys_aset_none {α : Type} (m : List (String × α)) (k : String) (v : α)
    (h : alookup m k = none) : akeys (aset m k v) = akeys m ++ [k] := by
  unfold aset
  rw [h]
  simp [akeys]

theorem akeys_aremove {α : Type} (m : List (String × α)) (k : String) :
    akeys (aremove m k) = (akeys m).filter (fun x => decide (x ≠ k)) := by
  unfold aremove akeys
  induction m with
  | nil => rfl
  | cons p rest ih =>
    rw [List.filter_cons, List.map_cons, List.filter_cons]
    simp only [ne_eq, decide_not] at ih
    by_cases h : p.1 = k
    · simp [h, ih]
    · simp [h, ih]

theorem akeys_fsRename (m : List (String × FileData)) (s t : String) (v : FileData)
    (hs : alookup m s = some v) (ht : alookup m t = none) :
    akeys (fsRename m s t) = (akeys m).filter (fun x => decide (x ≠ s)) ++ [t] := by
  unfold fsRename
  rw [hs]
  have hst : s ≠ t := by
    intro he
    rw [he, ht] at hs
    exact Option.noConfusion hs
  have h2 : alookup (aremove m s) t = none := by
    rw [alookup_aremove_ne m s t hst]
    exact ht
  rw [akeys_aset_none _ _ _ h2, akeys_aremove]

theorem insertStr_perm (x : String) (l : List String) : List.Perm (insertStr x l) (x :: l) := by
  induction l with
  | nil => exact List.Perm.refl _
  | cons a rest ih =>
    unfold insertStr
    by_cases h : strLtB a.data x.data
    · rw [if_pos h]
      exact (ih.cons a).trans (List.Perm.swap x a rest)
    · rw [if_neg h]

theorem sortStr_perm (l : List String) : List.Perm (sortStr l) l := by
  induction l with
  | nil => exact List.Perm.refl _
  | cons a rest ih =>
    unfold sortStr at ih ⊢
    rw [List.foldr_cons]
    exact (insertStr_perm a _).trans (ih.cons a)

theorem dedupStr_eq_of_nodup (l : List String) (h : l.Nodup) : dedupStr l = l := by
  induction l with
  | nil => rfl
  | cons a rest ih =>
    rw [List.nodup_cons] at h
    unfold dedupStr
    rw [if_neg h.1, ih h.2]

theorem length_filter_split {α : Type} (l : List α) (p : α → Bool) :
    (l.filter p).length + (l.filter (fun x => !(p x))).length = l.length := by
  induction l with
  | nil => rfl
  | cons a rest ih =>
    rw [List.filter_cons, List.filter_cons]
    cases h : p a <;> simp [h, List.length_cons] <;> omega

theorem partitionFoldl_all_others (files : List String)
    (h : ∀ x ∈ files, pyIsDigit (splitextBase x) = false) :
    ∀ acc : List (Nat × String) × List String,
      files.foldl (fun acc f =>
        let name := splitextBase f
        if pyIsDigit name then (numInsert acc.1 (strVal name.data) f, acc.2)
        else (acc.1, acc.2 ++ [f])) acc = (acc.1, acc.2 ++ files) := by
  induction files with
  | nil =>
    intro acc
    simp
  | cons g rest ih =>
    intro acc
    rw [List.foldl_cons]
    have hg := h g (List.mem_cons_self g rest)
    simp only [hg, Bool.false_eq_true, if_false]
    rw [ih (fun x hx => h x (List.mem_cons_of_mem g hx))]
    simp

theorem partitionFiles_all_others (files : List String)
    (h : ∀ x ∈ files, pyIsDigit (splitextBase x) = false) :
    partitionFiles files = ([], files) := by
  unfold partitionFiles
  rw [partitionFoldl_all_others files h ([], [])]
  simp

/-- Effect of one conversion task on a state where the target's half and
quarter tiers are absent and the full-tier target is absent unless the
source already is the target: the task succeeds, appends the target to the
half and quarter trees (and to the root tree when the source is not its own
target), and touches no other name. -/
theorem convert_ingest (s : St) (f : String) (fd : FileData) (im : Nat × Nat)
    (hr : alookup s.dirs.root f = some fd) (him : fd.img = some im)
    (htgt : finalNameOf f = f ∨ alookup s.dirs.root (finalNameOf f) = none)
    (hh : alookup s.dirs.halfd (finalNameOf f) = none)
    (hq : alookup s.dirs.quartd (finalNameOf f) = none) :
    (convert_and_resize s f false).result = some (finalNameOf f, f) ∧
    akeys (convert_and_resize s f false).st.dirs.root =
      akeys s.dirs.root ++ (if finalNameOf f = f then [] else [finalNameOf f]) ∧
    akeys (convert_and_resize s f false).st.dirs.halfd =
      akeys s.dirs.halfd ++ [finalNameOf f] ∧
    akeys (convert_and_resize s f false).st.dirs.quartd =
      akeys s.dirs.quartd ++ [finalNameOf f] ∧
    (∀ x, x ≠ finalNameOf f →
      alookup (convert_and_resize s f false).st.dirs.root x = alookup s.dirs.root x) ∧
    (∀ x, x ≠ finalNameOf f →
      alookup (convert_and_resize s f false).st.dirs.halfd x = alookup s.dirs.halfd x) ∧
    (∀ x, x ≠ finalNameOf f →
      alookup (convert_and_resize s f false).st.dirs.quartd x = alookup s.dirs.quartd x) := by
  by_cases hself : finalNameOf f = f
  · have hhf : alookup s.dirs.halfd f = none := hself ▸ hh
    have hqf : alookup s.dirs.quartd f = none := hself ▸ hq
    have h1 : step1 f f fd s = ⟨s, [.statR f], true⟩ := step1_self f fd fd s hr (le_refl _)
    have h2 : step2 f s =
        ⟨⟨{ s.dirs with halfd := aset s.dirs.halfd f (FileData.mk s.clock (some (max 1 (im.1 / 2), max 1 (im.2 / 2)))) }, s.clock + 1⟩,
          [.statH f, .openR f, .writeH f], true⟩ :=
      step2_regen_of_missing f fd im s hhf hr him
    have h3 : step3 f (⟨{ s.dirs with halfd := aset s.dirs.halfd f (FileData.mk s.clock (some (max 1 (im.1 / 2), max 1 (im.2 / 2)))) }, s.clock + 1⟩ : St) =
        ⟨⟨⟨s.dirs.root,
            aset s.dirs.halfd f (FileData.mk s.clock (some (max 1 (im.1 / 2), max 1 (im.2 / 2)))),
            aset s.dirs.quartd f (FileData.mk (s.clock + 1) (some (max 1 (max 1 (im.1 / 2) / 2), max 1 (max 1 (im.2 / 2) / 2))))⟩,
          s.clock + 2⟩,
          [.statQ f, .statH f, .openH f, .writeQ f], true⟩ :=
      step3_regen_of_missing f (FileData.mk s.clock (some (max 1 (im.1 / 2), max 1 (im.2 / 2))))
        (max 1 (im.1 / 2), max 1 (im.2 / 2)) _ hqf (alookup_aset_self _ _ _) rfl
    have e : convert_and_resize s f false =
        ⟨⟨⟨s.dirs.root,
            aset s.dirs.halfd f (FileData.mk s.clock (some (max 1 (im.1 / 2), max 1 (im.2 / 2)))),
            aset s.dirs.quartd f (FileData.mk (s.clock + 1) (some (max 1 (max 1 (im.1 / 2) / 2), max 1 (max 1 (im.2 / 2) / 2))))⟩,
          s.clock + 2⟩,
          some (f, f),
          [.statR f, .statR f, .statH f, .openR f, .writeH f, .statQ f, .statH f, .openH f,
            .writeQ f]⟩ := by
      unfold convert_and_resize
      simp only [hself, hr, h1, h2, h3]
      simp
    rw [e, hself]
    refine ⟨rfl, by simp, ?_, ?_, ?_, ?_, ?_⟩
    · exact akeys_aset_none _ _ _ hhf
    · exact akeys_aset_none _ _ _ hqf
    · intro x hx
      rfl
    · intro x hx
      exact alookup_aset_ne _ _ _ _ (Ne.symm hx)
    · intro x hx
      exact alookup_aset_ne _ _ _ _ (Ne.symm hx)
  · have htn : alookup s.dirs.root (finalNameOf f) = none := by
      rcases htgt with h | h
      · exact absurd h hself
      · exact h
    have hne : f ≠ finalNameOf f := fun he => hself he.symm
    have h1 : step1 f (finalNameOf f) fd s =
        ⟨⟨{ s.dirs with root := aset s.dirs.root (finalNameOf f) ⟨s.clock, some im⟩ }, s.clock + 1⟩,
          [.statR (finalNameOf f), .openR f, .writeR (finalNameOf f)], true⟩ :=
      step1_diff_write f (finalNameOf f) fd im s hne him
    have h2 : step2 (finalNameOf f) (⟨{ s.dirs with root := aset s.dirs.root (finalNameOf f) ⟨s.clock, some im⟩ }, s.clock + 1⟩ : St) =
        ⟨⟨⟨aset s.dirs.root (finalNameOf f) ⟨s.clock, some im⟩,
            aset s.dirs.halfd (finalNameOf f) (FileData.mk (s.clock + 1) (some (max 1 (im.1 / 2), max 1 (im.2 / 2)))),
            s.dirs.quartd⟩,
          s.clock + 2⟩,
          [.statH (finalNameOf f), .openR (finalNameOf f), .writeH (finalNameOf f)], true⟩ :=
      step2_regen_of_missing (finalNameOf f) ⟨s.clock, some im⟩ im _ hh
        (alookup_aset_self _ _ _) rfl
    have h3 : step3 (finalNameOf f) (⟨⟨aset s.dirs.root (finalNameOf f) ⟨s.clock, some im⟩,
          aset s.dirs.halfd (finalNameOf f) (FileData.mk (s.clock + 1) (some (max 1 (im.1 / 2), max 1 (im.2 / 2)))),
          s.dirs.quartd⟩, s.clock + 2⟩ : St) =
        ⟨⟨⟨aset s.dirs.root (finalNameOf f) ⟨s.clock, some im⟩,
            aset s.dirs.halfd (finalNameOf f) (FileData.mk (s.clock + 1) (some (max 1 (im.1 / 2), max 1 (im.2 / 2)))),
            aset s.dirs.quartd (finalNameOf f) (FileData.mk (s.clock + 2) (some (max 1 (max 1 (im.1 / 2) / 2), max 1 (max 1 (im.2 / 2) / 2))))⟩,
          s.clock + 3⟩,
          [.statQ (finalNameOf f), .statH (finalNameOf f), .openH (finalNameOf f),
            .writeQ (finalNameOf f)], true⟩ :=
      step3_regen_of_missing (finalNameOf f)
        (FileData.mk (s.clock + 1) (some (max 1 (im.1 / 2), max 1 (im.2 / 2))))
        (max 1 (im.1 / 2), max 1 (im.2 / 2)) _ hq (alookup_aset_self _ _ _) rfl
    have e : convert_and_resize s f false =
        ⟨⟨⟨aset s.dirs.root (finalNameOf f) ⟨s.clock, some im⟩,
            aset s.dirs.halfd (finalNameOf f) (FileData.mk (s.clock + 1) (some (max 1 (im.1 / 2), max 1 (im.2 / 2)))),
            aset s.dirs.quartd (finalNameOf f) (FileData.mk (s.clock + 2) (some (max 1 (max 1 (im.1 / 2) / 2), max 1 (max 1 (im.2 / 2) / 2))))⟩,
          s.clock + 3⟩,
          some (finalNameOf f, f),
          [.statR f, .statR (finalNameOf f), .openR f, .writeR (finalNameOf f),
            .statH (finalNameOf f), .openR (finalNameOf f), .writeH (finalNameOf f),
            .statQ (finalNameOf f), .statH (finalNameOf f), .openH (finalNameOf f),
            .writeQ (finalNameOf f)]⟩ := by
      unfold convert_and_resize
      simp only [hr, h1, h2, h3]
      simp
    rw [e]
    rw [if_neg hself]
    refine ⟨rfl, ?_, ?_, ?_, ?_, ?_, ?_⟩
    · exact akeys_aset_none _ _ _ htn
    · exact akeys_aset_none _ _ _ hh
    · exact akeys_aset_none _ _ _ hq
    · intro x hx
      exact alookup_aset_ne _ _ _ _ (Ne.symm hx)
    · intro x hx
      exact alookup_aset_ne _ _ _ _ (Ne.symm hx)
    · intro x hx
      exact alookup_aset_ne _ _ _ _ (Ne.symm hx)

/-- Effect of the conversion batch on a fresh ingest: every task succeeds,
the manifest gains one `(target, source)` entry per task in order, the half
and quarter trees gain exactly the targets, and the root tree gains the
targets of the sources that are not already their own target. -/
theorem runTasks_ingest (ts : List String) (s : St) (m : Manifest)
    (hsrc : ∀ f ∈ ts, ∃ fd, alookup s.dirs.root f = some fd ∧ fd.img.isSome = true)
    (htgt : ∀ f ∈ ts, finalNameOf f = f ∨ alookup s.dirs.root (finalNameOf f) = none)
    (hhalf : ∀ f ∈ ts, alookup s.dirs.halfd (finalNameOf f) = none)
    (hquart : ∀ f ∈ ts, alookup s.dirs.quartd (finalNameOf f) = none)
    (hdist : ts.Pairwise (fun a b => finalNameOf a ≠ finalNameOf b))
    (hfix : ∀ f ∈ ts, finalNameOf (finalNameOf f) = finalNameOf f)
    (hm : ∀ f ∈ ts, alookup m (finalNameOf f) = none) :
    (runTasks false ts s m).manifest = m ++ ts.map (fun f => (finalNameOf f, f)) ∧
    akeys (runTasks false ts s m).st.dirs.root =
      akeys s.dirs.root ++ (ts.filter (fun f => decide (finalNameOf f ≠ f))).map finalNameOf ∧
    akeys (runTasks false ts s m).st.dirs.halfd =
      akeys s.dirs.halfd ++ ts.map finalNameOf ∧
    akeys (runTasks false ts s m).st.dirs.quartd =
      akeys s.dirs.quartd ++ ts.map finalNameOf := by
  induction ts generalizing s m with
  | nil => simp [runTasks]
  | cons f rest ih =>
    obtain ⟨fd, hrf, hifd⟩ := hsrc f (List.mem_cons_self f rest)
    obtain ⟨im, him⟩ := Option.isSome_iff_exists.mp hifd
    have hc := convert_ingest s f fd im hrf him (htgt f (List.mem_cons_self f rest))
      (hhalf f (List.mem_cons_self f rest)) (hquart f (List.mem_cons_self f rest))
    have hpc := List.pairwise_cons.mp hdist
    have htgt_ne : ∀ g ∈ rest, g ≠ finalNameOf f := by
      intro g hg he
      have h1 : finalNameOf g ≠ finalNameOf f := fun hx => (hpc.1 g hg) hx.symm
      apply h1
      rw [he]
      exact hfix f (List.mem_cons_self f rest)
    have htt_ne : ∀ g ∈ rest, finalNameOf g ≠ finalNameOf f := by
      intro g hg hx
      exact (hpc.1 g hg) hx.symm
    have hm1 : (alookup m (finalNameOf f)).isNone = true := by
      rw [hm f (List.mem_cons_self f rest)]
      rfl
    have hih := ih (convert_and_resize s f false).st (m ++ [(finalNameOf f, f)])
      (fun g hg => by
        obtain ⟨gd, hgd, hgi⟩ := hsrc g (List.mem_cons_of_mem f hg)
        exact ⟨gd, by rw [hc.2.2.2.2.1 g (htgt_ne g hg)]; exact hgd, hgi⟩)
      (fun g hg => by
        rcases htgt g (List.mem_cons_of_mem f hg) with h | h
        · exact Or.inl h
        · exact Or.inr (by rw [hc.2.2.2.2.1 (finalNameOf g) (htt_ne g hg)]; exact h))
      (fun g hg => by
        rw [hc.2.2.2.2.2.1 (finalNameOf g) (htt_ne g hg)]
        exact hhalf g (List.mem_cons_of_mem f hg))
      (fun g hg => by
        rw [hc.2.2.2.2.2.2 (finalNameOf g) (htt_ne g hg)]
        exact hquart g (List.mem_cons_of_mem f hg))
      hpc.2
      (fun g hg => hfix g (List.mem_cons_of_mem f hg))
      (fun g hg => by
        rw [alookup_append]
        rw [hm g (List.mem_cons_of_mem f hg)]
        simp [alookup, Ne.symm (htt_ne g hg)])
    rw [runTasks]
    simp only [hc.1, hm1, if_true]
    refine ⟨?_, ?_, ?_, ?_⟩
    · rw [hih.1]
      simp
    · rw [hih.2.1, hc.2.1]
      by_cases hself : finalNameOf f = f
      · rw [if_pos hself, List.filter_cons]
        simp [hself]
      · rw [if_neg hself, List.filter_cons]
        have : decide (finalNameOf f ≠ f) = true := by simpa using hself
        simp [this]
    · rw [hih.2.2.1, hc.2.2.1]
      simp
    · rw [hih.2.2.2, hc.2.2.2.1]
      simp

theorem mem_akeys_of_isSome {α : Type} (m : List (String × α)) (x : String)
    (h : (alookup m x).isSome = true) : x ∈ akeys m := by
  by_contra hc
  rw [← alookup_eq_none_iff] at hc
  rw [hc] at h
  exact Bool.noConfusion h

theorem perform_rename_set_run (d : Dirs) (src dst : String)
    (hdst : alookup d.root dst = none)
    (hsr : (alookup d.root src).isSome = true)
    (hsh : (alookup d.halfd src).isSome = true)
    (hsq : (alookup d.quartd src).isSome = true) :
    perform_rename_set d false src dst =
      ⟨⟨fsRename d.root src dst, fsRename d.halfd src dst, fsRename d.quartd src dst⟩, true,
       [.statR dst, .statR src, .renameR src dst, .statH src, .renameH src dst,
        .statQ src, .renameQ src dst]⟩ := by
  unfold perform_rename_set
  rw [hdst]
  simp [hsr, hsh, hsq]

/-- Effect of the `others` renaming loop on a state where every listed file
is present in all three trees, no listed file has a numeric stem, and no
numeric name at or above the counter exists yet: every rename succeeds, the
loop assigns the consecutive slots `n, n+1, ...`, ends with counter
`n + os.length`, and the root tree afterwards consists of the untouched
non-listed names plus exactly the assigned numeric names. -/
theorem renameOthers_ingest (os : List String) (d : Dirs) (mm : Manifest) (n : Nat)
    (hroot : ∀ x ∈ os, x ∈ akeys d.root)
    (hhalf : ∀ x ∈ os, x ∈ akeys d.halfd)
    (hquart : ∀ x ∈ os, x ∈ akeys d.quartd)
    (hnodup : os.Nodup)
    (hnum : ∀ x ∈ os, pyIsDigit (splitextBase x) = false)
    (hnn : ∀ k, n ≤ k → alookup d.root (natToStr k ++ ".webp") = none)
    (hnnH : ∀ k, n ≤ k → alookup d.halfd (natToStr k ++ ".webp") = none)
    (hnnQ : ∀ k, n ≤ k → alookup d.quartd (natToStr k ++ ".webp") = none) :
    (renameOthers false os d mm n).2.2.1 = n + os.length ∧
    (∀ k, n ≤ k → k < n + os.length →
      (natToStr k ++ ".webp") ∈ akeys (renameOthers false os d mm n).1.root) ∧
    (∀ x, x ∉ os → (∀ k, n ≤ k → x ≠ natToStr k ++ ".webp") →
      alookup (renameOthers false os d mm n).1.root x = alookup d.root x) ∧
    (∀ x, x ∈ akeys (renameOthers false os d mm n).1.root →
      (x ∈ akeys d.root ∧ x ∉ os) ∨
      ∃ k, n ≤ k ∧ k < n + os.length ∧ x = natToStr k ++ ".webp") := by
  induction os generalizing d mm n with
  | nil =>
    refine ⟨by simp [renameOthers], ?_, ?_, ?_⟩
    · intro k h1 h2
      simp at h2
      omega
    · intro x hx hk
      rfl
    · intro x hx
      exact Or.inl ⟨hx, List.not_mem_nil x⟩
  | cons g rest ih =>
    have hnotnil := List.nodup_cons.mp hnodup
    have hgackR : (alookup d.root g).isSome = true :=
      alookup_isSome_of_mem _ _ (hroot g (List.mem_cons_self g rest))
    have hgackH : (alookup d.halfd g).isSome = true :=
      alookup_isSome_of_mem _ _ (hhalf g (List.mem_cons_self g rest))
    have hgackQ : (alookup d.quartd g).isSome = true :=
      alookup_isSome_of_mem _ _ (hquart g (List.mem_cons_self g rest))
    obtain ⟨vR, hvR⟩ := Option.isSome_iff_exists.mp hgackR
    obtain ⟨vH, hvH⟩ := Option.isSome_iff_exists.mp hgackH
    obtain ⟨vQ, hvQ⟩ := Option.isSome_iff_exists.mp hgackQ
    have hdstR := hnn n (le_refl n)
    have hdstH := hnnH n (le_refl n)
    have hdstQ := hnnQ n (le_refl n)
    have hrun := perform_rename_set_run d g (natToStr n ++ ".webp") hdstR hgackR hgackH hgackQ
    have hkeysR := akeys_fsRename d.root g (natToStr n ++ ".webp") vR hvR hdstR
    have hkeysH := akeys_fsRename d.halfd g (natToStr n ++ ".webp") vH hvH hdstH
    have hkeysQ := akeys_fsRename d.quartd g (natToStr n ++ ".webp") vQ hvQ hdstQ
    have hne_dst : ∀ x ∈ g :: rest, x ≠ natToStr n ++ ".webp" := by
      intro x hx
      exact ne_numeric_of_nonnum_base x n (hnum x hx)
    -- membership of a surviving name in the renamed tree
    have hmemR : ∀ x ∈ rest, x ∈ akeys (fsRename d.root g (natToStr n ++ ".webp")) := by
      intro x hx
      rw [hkeysR]
      apply List.mem_append_left
      rw [List.mem_filter]
      refine ⟨hroot x (List.mem_cons_of_mem g hx), ?_⟩
      simp only [decide_eq_true_eq]
      intro he
      exact hnotnil.1 (he ▸ hx)
    have hmemH : ∀ x ∈ rest, x ∈ akeys (fsRename d.halfd g (natToStr n ++ ".webp")) := by
      intro x hx
      rw [hkeysH]
      apply List.mem_append_left
      rw [List.mem_filter]
      refine ⟨hhalf x (List.mem_cons_of_mem g hx), ?_⟩
      simp only [decide_eq_true_eq]
      intro he
      exact hnotnil.1 (he ▸ hx)
    have hmemQ : ∀ x ∈ rest, x ∈ akeys (fsRename d.quartd g (natToStr n ++ ".webp")) := by
      intro x hx
      rw [hkeysQ]
      apply List.mem_append_left
      rw [List.mem_filter]
      refine ⟨hquart x (List.mem_cons_of_mem g hx), ?_⟩
      simp only [decide_eq_true_eq]
      intro he
      exact hnotnil.1 (he ▸ hx)
    have hnum_ne : ∀ k, n + 1 ≤ k → (natToStr k ++ ".webp") ≠ g ∧
        (natToStr k ++ ".webp") ≠ natToStr n ++ ".webp" := by
      intro k hk
      constructor
      · intro he
        exact (ne_numeric_of_nonnum_base g k (hnum g (List.mem_cons_self g rest))) he.symm
      · intro he
        have := natToStr_webp_inj k n he
        omega
    have hih := ih
      (⟨fsRename d.root g (natToStr n ++ ".webp"), fsRename d.halfd g (natToStr n ++ ".webp"),
        fsRename d.quartd g (natToStr n ++ ".webp")⟩ : Dirs)
      (rekey mm g (natToStr n ++ ".webp")) (n + 1)
      hmemR hmemH hmemQ hnotnil.2
      (fun x hx => hnum x (List.mem_cons_of_mem g hx))
      (fun k hk => by
        have h2 := hnum_ne k hk
        rw [fsRename_frame _ _ _ _ (Ne.symm h2.1) (Ne.symm h2.2)]
        exact hnn k (by omega))
      (fun k hk => by
        have h2 := hnum_ne k hk
        rw [fsRename_frame _ _ _ _ (Ne.symm h2.1) (Ne.symm h2.2)]
        exact hnnH k (by omega))
      (fun k hk => by
        have h2 := hnum_ne k hk
        rw [fsRename_frame _ _ _ _ (Ne.symm h2.1) (Ne.symm h2.2)]
        exact hnnQ k (by omega))
    rw [renameOthers]
    simp only [hrun, eq_self_iff_true, if_true]
    refine ⟨?_, ?_, ?_, ?_⟩
    · rw [hih.1]
      simp [List.length_cons]
      omega
    · intro k h1 h2
      by_cases hkn : k = n
      · subst hkn
        -- slot k survives the recursive renames untouched
        have hfr := hih.2.2.1 (natToStr k ++ ".webp")
          (fun hmem => (hne_dst _ (List.mem_cons_of_mem g hmem)) rfl)
          (fun k2 hk2 he => by
            have := natToStr_webp_inj k k2 he
            omega)
        apply mem_akeys_of_isSome
        rw [hfr]
        apply alookup_isSome_of_mem
        rw [hkeysR]
        exact List.mem_append_right _ (List.mem_singleton_self _)
      · exact hih.2.1 k (by omega) (by simp at h2 ⊢; omega)
    · intro x hx hk
      have hx1 : x ∉ rest := fun hmem => hx (List.mem_cons_of_mem g hmem)
      have hxg : x ≠ g := fun he => hx (he ▸ List.mem_cons_self g rest)
      rw [hih.2.2.1 x hx1 (fun k2 hk2 => hk k2 (by omega))]
      exact fsRename_frame _ _ _ _ (Ne.symm hxg) (Ne.symm (hk n (le_refl n)))
    · intro x hx
      rcases hih.2.2.2 x hx with ⟨hmem, hnot⟩ | ⟨k, hk1, hk2, he⟩
      · rw [hkeysR] at hmem
        rcases List.mem_append.mp hmem with h1 | h1
        · have h2 := List.mem_filter.mp h1
          refine Or.inl ⟨h2.1, ?_⟩
          intro hmem2
          rcases List.mem_cons.mp hmem2 with he | hmem3
          · have := h2.2
            simp only [decide_eq_true_eq] at this
            exact this he
          · exact hnot hmem3
        · rw [List.mem_singleton] at h1
          exact Or.inr ⟨n, le_refl n, by simp, h1⟩
      · exact Or.inr ⟨k, by omega, by simp at hk2 ⊢; omega, he⟩

set_option maxHeartbeats 1000000 in
/-- C4 amended: starting from an empty root (no numeric files, empty
manifest, empty half/quarter trees) holding `N` recognized, decodable
source files whose derived `.webp` target names are pairwise distinct and
non-numeric — and, additionally to the claim, where any source ending
case-insensitively in `.webp` is exactly its own (lowercase) target — one
pipeline run yields exactly the numeric names `1..N` in the root tier and
the renumbering step returns `N`. -/
theorem C4_dense_numbering (root0 : List (String × FileData)) (clock : Nat)
    (hnd : (akeys root0).Nodup)
    (hglob : ∀ f ∈ akeys root0, globMatchB f = true)
    (hdec : ∀ f ∈ akeys root0, ∃ fd, alookup root0 f = some fd ∧ fd.img.isSome = true)
    (hnonnum : ∀ f ∈ akeys root0, pyIsDigit (splitextBase f) = false)
    (hinj : ∀ f ∈ akeys root0, ∀ g ∈ akeys root0, finalNameOf f = finalNameOf g → f = g)
    (hwebp : ∀ f ∈ akeys root0, lowerEndsWebp f = true → finalNameOf f = f) :
    (process_directory ⟨⟨root0, [], []⟩, clock⟩ [] false).total = root0.length ∧
    (∀ k, 1 ≤ k → k ≤ root0.length →
      (natToStr k ++ ".webp") ∈
        akeys (process_directory ⟨⟨root0, [], []⟩, clock⟩ [] false).st.dirs.root) ∧
    (∀ x ∈ akeys (process_directory ⟨⟨root0, [], []⟩, clock⟩ [] false).st.dirs.root,
      lowerEndsWebp x = true →
      ∃ k, 1 ≤ k ∧ k ≤ root0.length ∧ x = natToStr k ++ ".webp") := by
  have hKlen : (akeys root0).length = root0.length := List.length_map root0 Prod.fst
  -- discovery
  have hpend : discover root0 [] = sortStr (akeys root0) := by
    unfold discover
    rw [List.filter_eq_self.mpr hglob, dedupStr_eq_of_nodup _ hnd]
    apply List.filter_eq_self.mpr
    intro x hx
    rfl
  have hperm : List.Perm (discover root0 []) (akeys root0) := by
    rw [hpend]
    exact sortStr_perm _
  have hpmem : ∀ x, x ∈ discover root0 [] ↔ x ∈ akeys root0 := fun x => hperm.mem_iff
  have hpnodup : (discover root0 []).Nodup := hperm.nodup_iff.mpr hnd
  have hpfix : ∀ f ∈ discover root0 [], finalNameOf (finalNameOf f) = finalNameOf f :=
    fun f hf => finalNameOf_self_of_target f (hglob f ((hpmem f).mp hf))
  have hpdist : (discover root0 []).Pairwise (fun a b => finalNameOf a ≠ finalNameOf b) := by
    apply List.Pairwise.imp_of_mem ?_ hpnodup
    intro a b ha hb hne he
    exact hne (hinj a ((hpmem a).mp ha) b ((hpmem b).mp hb) he)
  have htgt0 : ∀ f ∈ discover root0 [],
      finalNameOf f = f ∨ alookup root0 (finalNameOf f) = none := by
    intro f hf
    by_cases hl : lowerEndsWebp f = true
    · exact Or.inl (hwebp f ((hpmem f).mp hf) hl)
    · right
      rw [alookup_eq_none_iff]
      intro hmem
      have hfK := (hpmem f).mp hf
      have hself : finalNameOf (finalNameOf f) = finalNameOf f :=
        finalNameOf_self_of_target f (hglob f hfK)
      have := hinj (finalNameOf f) hmem f hfK hself
      exact (lowerEndsWebp_of_self f (Bool.eq_false_iff.mpr hl)) this
  -- conversion phase
  have hA := runTasks_ingest (discover root0 []) ⟨⟨root0, [], []⟩, clock⟩ []
    (fun f hf => hdec f ((hpmem f).mp hf))
    htgt0
    (fun f hf => rfl)
    (fun f hf => rfl)
    hpdist hpfix
    (fun f hf => rfl)
  -- phase B stage equalities
  have hNTlow : ∀ x ∈ ((discover root0 []).filter
      (fun f => decide (finalNameOf f ≠ f))).map finalNameOf, lowerEndsWebp x = true := by
    intro x hx
    obtain ⟨g, hg, rfl⟩ := List.mem_map.mp hx
    exact lowerEndsWebp_append_webp (splitextBase g)
  have hfiles_eq : stdFiles (runTasks false (discover root0 []) ⟨⟨root0, [], []⟩, clock⟩ []).st.dirs =
      (akeys root0).filter lowerEndsWebp ++
        ((discover root0 []).filter (fun f => decide (finalNameOf f ≠ f))).map finalNameOf := by
    unfold stdFiles
    rw [hA.2.1]
    rw [List.filter_append]
    congr 1
    exact List.filter_eq_self.mpr hNTlow
  have hall_nonnum : ∀ x ∈ (akeys root0).filter lowerEndsWebp ++
      ((discover root0 []).filter (fun f => decide (finalNameOf f ≠ f))).map finalNameOf,
      pyIsDigit (splitextBase x) = false := by
    intro x hx
    rcases List.mem_append.mp hx with h1 | h1
    · exact hnonnum x (List.mem_filter.mp h1).1
    · obtain ⟨g, hg, rfl⟩ := List.mem_map.mp h1
      have hgK := (hpmem g).mp (List.mem_filter.mp hg).1
      rw [splitextBase_finalNameOf g (hglob g hgK)]
      exact hnonnum g hgK
  have hpr_eq : stdPr (runTasks false (discover root0 []) ⟨⟨root0, [], []⟩, clock⟩ []).st.dirs =
      ([], (akeys root0).filter lowerEndsWebp ++
        ((discover root0 []).filter (fun f => decide (finalNameOf f ≠ f))).map finalNameOf) := by
    unfold stdPr
    rw [hfiles_eq]
    exact partitionFiles_all_others _ hall_nonnum
  have hnums_eq : stdNums (runTasks false (discover root0 []) ⟨⟨root0, [], []⟩, clock⟩ []).st.dirs = [] := by
    unfold stdNums
    rw [hpr_eq]
    rfl
  have hfill_eq : stdFill (runTasks false (discover root0 []) ⟨⟨root0, [], []⟩, clock⟩ []).st.dirs
      (runTasks false (discover root0 []) ⟨⟨root0, [], []⟩, clock⟩ []).manifest false =
      ((runTasks false (discover root0 []) ⟨⟨root0, [], []⟩, clock⟩ []).st.dirs,
       (runTasks false (discover root0 []) ⟨⟨root0, [], []⟩, clock⟩ []).manifest, [], []) := by
    unfold stdFill
    rw [hnums_eq]
    rfl
  have hnext_eq : stdNext (runTasks false (discover root0 []) ⟨⟨root0, [], []⟩, clock⟩ []).st.dirs
      (runTasks false (discover root0 []) ⟨⟨root0, [], []⟩, clock⟩ []).manifest false = 1 := by
    unfold stdNext
    rw [hfill_eq]
    rfl
  have hoth_eq : stdOthersRun (runTasks false (discover root0 []) ⟨⟨root0, [], []⟩, clock⟩ []).st.dirs
      (runTasks false (discover root0 []) ⟨⟨root0, [], []⟩, clock⟩ []).manifest false =
      renameOthers false
        ((akeys root0).filter lowerEndsWebp ++
          ((discover root0 []).filter (fun f => decide (finalNameOf f ≠ f))).map finalNameOf)
        (runTasks false (discover root0 []) ⟨⟨root0, [], []⟩, clock⟩ []).st.dirs
        (runTasks false (discover root0 []) ⟨⟨root0, [], []⟩, clock⟩ []).manifest 1 := by
    unfold stdOthersRun
    rw [hpr_eq, hfill_eq, hnext_eq]
  -- hypotheses of the renaming loop
  have hAT : akeys (runTasks false (discover root0 []) ⟨⟨root0, [], []⟩, clock⟩ []).st.dirs.halfd =
      (discover root0 []).map finalNameOf := by
    rw [hA.2.2.1]
    rfl
  have hATQ : akeys (runTasks false (discover root0 []) ⟨⟨root0, [], []⟩, clock⟩ []).st.dirs.quartd =
      (discover root0 []).map finalNameOf := by
    rw [hA.2.2.2]
    rfl
  have hfile_form : ∀ x ∈ (akeys root0).filter lowerEndsWebp ++
      ((discover root0 []).filter (fun f => decide (finalNameOf f ≠ f))).map finalNameOf,
      ∃ g ∈ discover root0 [], x = finalNameOf g := by
    intro x hx
    rcases List.mem_append.mp hx with h1 | h1
    · have h2 := List.mem_filter.mp h1
      refine ⟨x, (hpmem x).mpr h2.1, ?_⟩
      exact (hwebp x h2.1 h2.2).symm
    · obtain ⟨g, hg, rfl⟩ := List.mem_map.mp h1
      exact ⟨g, (List.mem_filter.mp hg).1, rfl⟩
  have hroot_mem : ∀ x ∈ (akeys root0).filter lowerEndsWebp ++
      ((discover root0 []).filter (fun f => decide (finalNameOf f ≠ f))).map finalNameOf,
      x ∈ akeys (runTasks false (discover root0 []) ⟨⟨root0, [], []⟩, clock⟩ []).st.dirs.root := by
    intro x hx
    rw [← hfiles_eq] at hx
    exact (List.mem_filter.mp hx).1
  have hhalf_mem : ∀ x ∈ (akeys root0).filter lowerEndsWebp ++
      ((discover root0 []).filter (fun f => decide (finalNameOf f ≠ f))).map finalNameOf,
      x ∈ akeys (runTasks false (discover root0 []) ⟨⟨root0, [], []⟩, clock⟩ []).st.dirs.halfd := by
    intro x hx
    rw [hAT]
    obtain ⟨g, hg, rfl⟩ := hfile_form x hx
    exact List.mem_map_of_mem finalNameOf hg
  have hquart_mem : ∀ x ∈ (akeys root0).filter lowerEndsWebp ++
      ((discover root0 []).filter (fun f => decide (finalNameOf f ≠ f))).map finalNameOf,
      x ∈ akeys (runTasks false (discover root0 []) ⟨⟨root0, [], []⟩, clock⟩ []).st.dirs.quartd := by
    intro x hx
    rw [hATQ]
    obtain ⟨g, hg, rfl⟩ := hfile_form x hx
    exact List.mem_map_of_mem finalNameOf hg
  have hdisj : ∀ x ∈ akeys root0,
      x ∉ ((discover root0 []).filter (fun f => decide (finalNameOf f ≠ f))).map finalNameOf := by
    intro x hxK hxNT
    obtain ⟨g, hg, he⟩ := List.mem_map.mp hxNT
    have hgfil := List.mem_filter.mp hg
    have hgK := (hpmem g).mp hgfil.1
    have hne : finalNameOf g ≠ g := by
      have := hgfil.2
      simpa using this
    have hself : finalNameOf x = x := by
      rw [← he]
      exact finalNameOf_self_of_target g (hglob g hgK)
    have := hinj x hxK g hgK (by rw [hself, ← he])
    rw [he] at hne
    rw [this] at hne
    exact hne rfl
  have hNTnodup : (((discover root0 []).filter
      (fun f => decide (finalNameOf f ≠ f))).map finalNameOf).Nodup := by
    apply List.Nodup.map_on
    · intro a ha b hb he
      exact hinj a ((hpmem a).mp (List.mem_filter.mp ha).1) b
        ((hpmem b).mp (List.mem_filter.mp hb).1) he
    · exact hpnodup.filter _
  have hos_nodup : ((akeys root0).filter lowerEndsWebp ++
      ((discover root0 []).filter (fun f => decide (finalNameOf f ≠ f))).map finalNameOf).Nodup := by
    rw [List.nodup_append]
    refine ⟨hnd.filter _, hNTnodup, ?_⟩
    intro x hx1 hx2
    exact hdisj x (List.mem_filter.mp hx1).1 hx2
  have hnn_root : ∀ k, 1 ≤ k →
      alookup (runTasks false (discover root0 []) ⟨⟨root0, [], []⟩, clock⟩ []).st.dirs.root
        (natToStr k ++ ".webp") = none := by
    intro k hk
    rw [alookup_eq_none_iff, hA.2.1]
    intro hmem
    rcases List.mem_append.mp hmem with h1 | h1
    · exact (ne_numeric_of_nonnum_base _ k (hnonnum _ h1)) rfl
    · obtain ⟨g, hg, he⟩ := List.mem_map.mp h1
      have hgK := (hpmem g).mp (List.mem_filter.mp hg).1
      have : pyIsDigit (splitextBase (finalNameOf g)) = false := by
        rw [splitextBase_finalNameOf g (hglob g hgK)]
        exact hnonnum g hgK
      exact (ne_numeric_of_nonnum_base _ k this) he
  have hnum_tgt : ∀ g ∈ discover root0 [],
      pyIsDigit (splitextBase (finalNameOf g)) = false := by
    intro g hg
    have hgK := (hpmem g).mp hg
    rw [splitextBase_finalNameOf g (hglob g hgK)]
    exact hnonnum g hgK
  have hnn_half : ∀ k, 1 ≤ k →
      alookup (runTasks false (discover root0 []) ⟨⟨root0, [], []⟩, clock⟩ []).st.dirs.halfd
        (natToStr k ++ ".webp") = none := by
    intro k hk
    rw [alookup_eq_none_iff, hAT]
    intro hmem
    obtain ⟨g, hg, he⟩ := List.mem_map.mp hmem
    exact (ne_numeric_of_nonnum_base _ k (hnum_tgt g hg)) he
  have hnn_quart : ∀ k, 1 ≤ k →
      alookup (runTasks false (discover root0 []) ⟨⟨root0, [], []⟩, clock⟩ []).st.dirs.quartd
        (natToStr k ++ ".webp") = none := by
    intro k hk
    rw [alookup_eq_none_iff, hATQ]
    intro hmem
    obtain ⟨g, hg, he⟩ := List.mem_map.mp hmem
    exact (ne_numeric_of_nonnum_base _ k (hnum_tgt g hg)) he
  have hB := renameOthers_ingest
    ((akeys root0).filter lowerEndsWebp ++
      ((discover root0 []).filter (fun f => decide (finalNameOf f ≠ f))).map finalNameOf)
    (runTasks false (discover root0 []) ⟨⟨root0, [], []⟩, clock⟩ []).st.dirs
    (runTasks false (discover root0 []) ⟨⟨root0, [], []⟩, clock⟩ []).manifest 1
    hroot_mem hhalf_mem hquart_mem hos_nodup hall_nonnum hnn_root hnn_half hnn_quart
  -- length of the file list
  have hlen : ((akeys root0).filter lowerEndsWebp ++
      ((discover root0 []).filter (fun f => decide (finalNameOf f ≠ f))).map finalNameOf).length =
      root0.length := by
    rw [List.length_append, List.length_map]
    have h1 : ((akeys root0).filter lowerEndsWebp).length =
        ((discover root0 []).filter lowerEndsWebp).length :=
      ((hperm.filter lowerEndsWebp).length_eq).symm
    have h2 : (discover root0 []).filter (fun f => decide (finalNameOf f ≠ f)) =
        (discover root0 []).filter (fun f => !(lowerEndsWebp f)) := by
      apply List.filter_congr
      intro g hg
      have hgK := (hpmem g).mp hg
      cases hl : lowerEndsWebp g with
      | true =>
        have := hwebp g hgK hl
        simp [this]
      | false =>
        have := lowerEndsWebp_of_self g hl
        simp [this]
    rw [h1, h2]
    have h3 := length_filter_split (discover root0 []) lowerEndsWebp
    have h4 : (discover root0 []).length = root0.length := by
      rw [hperm.length_eq, hKlen]
    omega
  -- assemble via the definitional decomposition of process_directory
  have hpd : process_directory ⟨⟨root0, [], []⟩, clock⟩ [] false =
      ⟨⟨(standardize_names_and_fill_gaps
          (runTasks false (discover root0 []) ⟨⟨root0, [], []⟩, clock⟩ []).st.dirs
          (runTasks false (discover root0 []) ⟨⟨root0, [], []⟩, clock⟩ []).manifest false).dirs,
        (runTasks false (discover root0 []) ⟨⟨root0, [], []⟩, clock⟩ []).st.clock⟩,
       (standardize_names_and_fill_gaps
          (runTasks false (discover root0 []) ⟨⟨root0, [], []⟩, clock⟩ []).st.dirs
          (runTasks false (discover root0 []) ⟨⟨root0, [], []⟩, clock⟩ []).manifest false).manifest,
       (standardize_names_and_fill_gaps
          (runTasks false (discover root0 []) ⟨⟨root0, [], []⟩, clock⟩ []).st.dirs
          (runTasks false (discover root0 []) ⟨⟨root0, [], []⟩, clock⟩ []).manifest false).total,
       (runTasks false (discover root0 []) ⟨⟨root0, [], []⟩, clock⟩ []).evs ++
       (standardize_names_and_fill_gaps
          (runTasks false (discover root0 []) ⟨⟨root0, [], []⟩, clock⟩ []).st.dirs
          (runTasks false (discover root0 []) ⟨⟨root0, [], []⟩, clock⟩ []).manifest false).evs⟩ := rfl
  rw [hpd]
  simp only [standardize_decompose, hoth_eq]
  refine ⟨?_, ?_, ?_⟩
  · rw [hB.1, hlen]
    omega
  · intro k h1 h2
    apply hB.2.1 k h1
    rw [hlen]
    omega
  · intro x hx hlow
    rcases hB.2.2.2 x hx with ⟨hmem, hnot⟩ | ⟨k, hk1, hk2, he⟩
    · exfalso
      apply hnot
      rw [← hfiles_eq]
      unfold stdFiles
      exact List.mem_filter.mpr ⟨hmem, hlow⟩
    · refine ⟨k, hk1, ?_, he⟩
      rw [hlen] at hk2
      omega

/-- C4 counterexample: an empty root holding the single source `A.WEBP`
(with empty manifest, decodable, derived target `A.webp` non-numeric and
trivially pairwise-distinct, no failures) does not converge to `1..1` — the
run leaves the numeric names `{1, 2}` and the renumbering step returns 2,
because the uppercase original also ends (case-insensitively) in `.webp`
and is renumbered alongside its own converted copy. -/
theorem C4_dense_numbering_cex :
    pyIsDigit (splitextBase (finalNameOf "A.WEBP")) = false ∧
    (process_directory ⟨⟨[("A.WEBP", ⟨0, some (2, 2)⟩)], [], []⟩, 1⟩ [] false).total = 2 ∧
    "2.webp" ∈ akeys
      (process_directory ⟨⟨[("A.WEBP", ⟨0, some (2, 2)⟩)], [], []⟩, 1⟩ [] false).st.dirs.root := by
  decide

/-- C4 amended witness: one fresh `photo.png` source yields exactly slot 1
and total 1. -/
theorem C4_dense_numbering_witness :
    (process_directory ⟨⟨[("photo.png", ⟨0, some (4, 4)⟩)], [], []⟩, 5⟩ [] false).total = 1 ∧
    "1.webp" ∈ akeys
      (process_directory ⟨⟨[("photo.png", ⟨0, some (4, 4)⟩)], [], []⟩, 5⟩ [] false).st.dirs.root := by
  have h := C4_dense_numbering [("photo.png", ⟨0, some (4, 4)⟩)] 5
    (by decide) (by decide)
    (by
      intro f hf
      simp [akeys] at hf
      subst hf
      exact ⟨⟨0, some (4, 4)⟩, rfl, rfl⟩)
    (by decide)
    (by
      intro f hf g hg he
      simp [akeys] at hf hg
      rw [hf, hg])
    (by
      intro f hf hl
      simp [akeys] at hf
      rw [hf] at hl
      exact absurd hl (by decide))
  have e : natToStr 1 ++ ".webp" = "1.webp" := rfl
  refine ⟨h.1, ?_⟩
  rw [← e]
  exact h.2.1 1 (by decide) (by decide)

end ProcessAssets
